import Mathlib

/-!
Verification of the vibelive generative-music engine against its
specification.  The embedding below is a shallow model of the Rust sources:

* `src/backend/src/cfg/mod.rs` — the backend AST and `MusicString::compose`
  (namespace `Backend`);
* `src/music-turtles/src/cfg/scan.rs` — the DSL scanner combinators and the
  concrete scanners (namespace `MT`);
* `src/music-turtles/src/scheduler.rs` — the real-time scheduler
  (namespace `MT`);
* `src/music-turtles/src/player.rs` — the MIDI player's velocity computation
  (namespace `MT`).

The crates' `time.rs` and `composition.rs` are not part of the given sources,
so the time algebra (`MusicTime`, `Beat`, `TimeSignature`), the pitch/volume
primitives and the few `Composition`/`Track` methods the given files call are
modelled from the specification; each such definition carries a doc comment
starting with `Modelled from the spec:`.  Rust `f64`/`f32` seconds are
modelled as exact rationals (the spec's §9 "Fractional time" note), and Rust
panics are modelled as error outcomes.
-/

namespace VibeLive

/-- Modelled from the spec: `Beat` is an exact rational count of beat units
(the unit is `1/denominator` of a whole note at the governing time
signature).  The bounded-denominator invariant is not needed for the claims
below. -/
abbrev Beat := ℚ

/-- Modelled from the spec: `TimeSignature` is `(numerator, denominator)`. -/
structure TimeSignature where
  num : ℕ
  den : ℕ
deriving DecidableEq, Repr

/-- Modelled from the spec: `MusicTime` is an ordered pair
`(measures, beat)`; kept normalized (`0 ≤ beat < num`) by the arithmetic,
which requires a `TimeSignature` witness. -/
structure MusicTime where
  measure : ℤ
  beat : ℚ
deriving DecidableEq, Repr

/-- Modelled from the spec: `MusicTime::zero()`. -/
def MusicTime.zero : MusicTime := ⟨0, 0⟩

/-- Modelled from the spec: `MusicTime::beats(n)` stores `n` beats with no
measure part (spec §9: duration `<n>` is stored as `MusicTime::beats(n)`). -/
def MusicTime.beats (n : ℕ) : MusicTime := ⟨0, (n : ℚ)⟩

/-- Modelled from the spec: `MusicTime::measures(n)`. -/
def MusicTime.measures (n : ℤ) : MusicTime := ⟨n, 0⟩

/-- Modelled from the spec: normalization moves whole measures out of the
beat component so that `0 ≤ beat < num` (for `num > 0`). -/
def mtNormalize (ts : TimeSignature) (t : MusicTime) : MusicTime :=
  ⟨t.measure + ⌊t.beat / (ts.num : ℚ)⌋, t.beat - (ts.num : ℚ) * ⌊t.beat / (ts.num : ℚ)⌋⟩

/-- Modelled from the spec: addition of two `MusicTime`s against a
`TimeSignature` witness (`a.with(ts) + b` in the sources). -/
def mtAdd (ts : TimeSignature) (a b : MusicTime) : MusicTime :=
  mtNormalize ts ⟨a.measure + b.measure, a.beat + b.beat⟩

/-- Modelled from the spec: subtraction of two `MusicTime`s against a
`TimeSignature` witness (`a.with(ts) - b` in the sources). -/
def mtSub (ts : TimeSignature) (a b : MusicTime) : MusicTime :=
  mtNormalize ts ⟨a.measure - b.measure, a.beat - b.beat⟩

/-- Modelled from the spec: the derived lexicographic strict order on the
`(measures, beat)` pair (Rust `#[derive(PartialOrd, Ord)]`). -/
def mtLtB (a b : MusicTime) : Bool :=
  a.measure < b.measure || (a.measure == b.measure && a.beat < b.beat)

/-- Lexicographic non-strict order on `MusicTime`. -/
def mtLeB (a b : MusicTime) : Bool :=
  a.measure < b.measure || (a.measure == b.measure && a.beat ≤ b.beat)

/-- Lexicographic maximum of two `MusicTime`s. -/
def mtMax (a b : MusicTime) : MusicTime :=
  if mtLtB a b then b else a

/-- Total number of beats a `MusicTime` denotes at a time signature:
`measures · num + beat`.  This is the semantics the spec's §3 formula uses. -/
def tbQ (ts : TimeSignature) (t : MusicTime) : ℚ :=
  (t.measure : ℚ) * (ts.num : ℚ) + t.beat

/-- Modelled from the spec: seconds per `MusicTime` is
`(measures · num + beat_in_beats) · 60 / BPM`. -/
def MusicTime.toSeconds (t : MusicTime) (ts : TimeSignature) (bpm : ℚ) : ℚ :=
  tbQ ts t * 60 / bpm

/-- Modelled from the spec: `MusicTime::from_seconds(ts, bpm, t)`, the inverse
of `to_seconds`, returned normalized. -/
def MusicTime.fromSeconds (ts : TimeSignature) (bpm : ℚ) (s : ℚ) : MusicTime :=
  mtNormalize ts ⟨0, s * bpm / 60⟩

/-- Modelled from the spec: `Beat::as_music_time(ts)` embeds a beat count as
a `MusicTime` with no measure part. -/
def beatAsMusicTime (b : Beat) : MusicTime := ⟨0, b⟩

/-- Normalization predicate: the beat component lies in `[0, num)`. -/
def IsNorm (ts : TimeSignature) (t : MusicTime) : Prop :=
  0 ≤ t.beat ∧ t.beat < (ts.num : ℚ)

/-- Modelled from the spec: `Pitch` is `(octave, semitone)`. -/
structure Pitch where
  octave : ℤ
  semitone : ℤ
deriving DecidableEq, Repr

/-- Modelled from the spec: MIDI note of a pitch is
`12·(octave+1) + semitone`. -/
def Pitch.toMidiNote (p : Pitch) : ℤ := 12 * (p.octave + 1) + p.semitone

/-- Modelled from the spec: `Volume` is an integer in `[0,100]`; the range
invariant is not enforced by the Rust type either. -/
abbrev Volume := ℕ

/-- Modelled from the spec: a closed instrument enumeration including at
least `SineWave` and `Piano`. -/
inductive Instrument where
  | sineWave
  | piano
deriving DecidableEq, Repr

/-- Modelled from the spec: an `Event` is an absolutely-timed note with a
`Beat` duration. -/
structure Event where
  start : MusicTime
  duration : Beat
  volume : Volume
  pitch : Pitch
deriving DecidableEq, Repr

/-- End time of an event: `start + duration` at the time signature. -/
def Event.endMT (ts : TimeSignature) (e : Event) : MusicTime :=
  mtAdd ts e.start (beatAsMusicTime e.duration)

/-- Track identifier, as used by the sources (`TrackId::Instrument`,
`TrackId::Custom`). -/
inductive TrackId where
  | instrument (i : Instrument)
  | custom (n : ℕ)
deriving DecidableEq, Repr

/-- A `Track`: identifier, instrument and event list.  Both crates'
`composition.rs` files declare this shape (the music-turtles one also has a
`rests` field, which no given source file reads; it is omitted). -/
structure Track where
  identifier : TrackId
  instrument : Instrument
  events : List Event
deriving DecidableEq, Repr

/-- Modelled from the spec: `Track + Track` (same instrument) concatenates
the event lists, keeping the left identifier. -/
def Track.add (a b : Track) : Track :=
  { identifier := a.identifier, instrument := a.instrument,
    events := a.events ++ b.events }

/-- The common 4/4 time signature, used by the concrete instances below. -/
def ts44 : TimeSignature := ⟨4, 4⟩

/-- Decidable equality for `Except`, used to evaluate the embedded fallible
functions inside proofs. -/
instance instDecEqExcept {ε α : Type} [DecidableEq ε] [DecidableEq α] :
    DecidableEq (Except ε α)
  | .ok x, .ok y => decidable_of_iff (x = y) ⟨congrArg _, Except.ok.inj⟩
  | .error e, .error f => decidable_of_iff (e = f) ⟨congrArg _, Except.error.inj⟩
  | .ok _, .error _ => isFalse (fun h => Except.noConfusion h)
  | .error _, .ok _ => isFalse (fun h => Except.noConfusion h)

namespace Backend

/-! The backend crate's AST and composer, from `src/backend/src/cfg/mod.rs`.
This crate's `MusicPrimitive` has `Simple`, `Split` and `Repeat` variants
(no general `Transform`). -/

/-- Backend `TerminalNote`: a pitched note or a rest. -/
inductive TerminalNote where
  | note (pitch : Pitch)
  | rest
deriving DecidableEq, Repr

/-- Backend `MetaControl`. -/
inductive MetaControl where
  | changeInstrument (i : Instrument)
  | changeVolume (v : Volume)
deriving DecidableEq, Repr

/-- Backend `Terminal`. -/
inductive Terminal where
  | music (duration : MusicTime) (note : TerminalNote)
  | meta (c : MetaControl)
deriving DecidableEq, Repr

/-- Backend `Symbol`: non-terminal (by name) or terminal. -/
inductive Symbol where
  | nt (name : String)
  | t (t : Terminal)
deriving DecidableEq, Repr

/-- Backend `MusicPrimitive`; a `MusicString` is a list of these. -/
inductive MusicPrimitive where
  | simple (s : Symbol)
  | split (branches : List (List MusicPrimitive))
  | rep (num : ℕ) (content : List MusicPrimitive)

/-- Backend `MusicString` (the Rust newtype around `Vec<MusicPrimitive>`). -/
abbrev MusicString := List MusicPrimitive

/-- Backend `Composition`: a list of tracks plus the time signature.  The
Rust field is a `Vec<Track>` filled from a `HashMap`'s values; the list
order here is the deterministic insertion order (unobservable through the
map). -/
structure Composition where
  tracks : List Track
  timeSignature : TimeSignature
deriving DecidableEq, Repr

/-- Modelled from the spec: `Composition::shift_by(offset)` adds the offset
to every event's start time. -/
def Composition.shiftBy (c : Composition) (offset : MusicTime) : Composition :=
  { c with tracks := c.tracks.map (fun tr =>
      { tr with events := tr.events.map (fun e =>
          { e with start := mtAdd c.timeSignature e.start offset }) }) }

/-- Modelled from the spec: `Composition::get_duration()` is the latest event
end time over all tracks (`MusicTime::zero()` for a composition with no
events) — the composition's total duration. -/
def Composition.getDuration (c : Composition) : MusicTime :=
  c.tracks.foldl
    (fun acc tr => tr.events.foldl
      (fun a e => mtMax a (e.endMT c.timeSignature)) acc)
    MusicTime.zero

/-- The running track map of `MusicString::compose`.  Rust uses a
`HashMap<Instrument, Track>`; an association list keyed by instrument is the
deterministic stand-in (iteration order is unobservable through the map). -/
abbrev TrackMap := List (Instrument × Track)

/-- The composer's `add_event` helper: push onto the instrument's track, or
insert a fresh track keyed by the instrument. -/
def addEvent (tracks : TrackMap) (e : Event) (instrument : Instrument) : TrackMap :=
  match tracks with
  | [] => [(instrument, { identifier := TrackId.instrument instrument,
                          instrument := instrument, events := [e] })]
  | (i, tr) :: rest =>
    if i = instrument then (i, { tr with events := tr.events ++ [e] }) :: rest
    else (i, tr) :: addEvent rest e instrument

/-- The composer's `add_track` helper: merge into the existing track for the
same instrument (`existing + new`), or insert the track fresh. -/
def addTrack (tracks : TrackMap) (track : Track) : TrackMap :=
  match tracks with
  | [] => [(track.instrument, track)]
  | (i, tr) :: rest =>
    if i = track.instrument then (i, tr.add track) :: rest
    else (i, tr) :: addTrack rest track

/-- The composer's `add_composition` helper: add every track of the
sub-composition. -/
def addComposition (tracks : TrackMap) (c : Composition) : TrackMap :=
  c.tracks.foldl addTrack tracks

/-- The mutable state `MusicString::compose` walks with: the running track
map, cursor, instrument and volume. -/
structure CState where
  tracks : TrackMap
  mt : MusicTime
  instrument : Instrument
  volume : Volume
deriving Repr

/-- The outcome of composing: the Rust code has no error type and instead
panics on a non-uniform (or empty) split; the panic, which carries the
branches' durations in its message, is modelled as this error value. -/
inductive ComposeErr where
  | nonUniformSplitPanic (durations : List MusicTime)
deriving DecidableEq, Repr

/-- The composer's initial state: empty track map, cursor zero, `SineWave`,
volume 50. -/
def initState : CState :=
  { tracks := [], mt := MusicTime.zero,
    instrument := Instrument.sineWave, volume := 50 }

/-- A simple pitched-note primitive with a whole-beat duration, for the
concrete instances below. -/
def noteSimple (oct semi : ℤ) (beats : ℕ) : MusicPrimitive :=
  .simple (.t (.music (MusicTime.beats beats) (.note ⟨oct, semi⟩)))

mutual

/-- One step of the composer's walk: the body of the `match mp` in
`MusicString::compose` (backend `mod.rs`, lines 108–187).  Returns the
updated state (cursor untouched, as in the source) and the duration the
primitive contributes; the walk then advances the cursor by that duration. -/
def composePrim (ts : TimeSignature) (st : CState) :
    MusicPrimitive → Except ComposeErr (CState × MusicTime)
  | .simple (.nt _) => .ok (st, MusicTime.zero)
  | .simple (.t (.music dur (.note pitch))) =>
      let e : Event := { start := st.mt, duration := tbQ ts dur,
                         volume := st.volume, pitch := pitch }
      .ok ({ st with tracks := addEvent st.tracks e st.instrument }, dur)
  | .simple (.t (.music dur .rest)) => .ok (st, dur)
  | .simple (.t (.meta (.changeInstrument i))) =>
      .ok ({ st with instrument := i }, MusicTime.zero)
  | .simple (.t (.meta (.changeVolume v))) =>
      .ok ({ st with volume := v }, MusicTime.zero)
  | .split bs => do
      let subs ← composeList ts bs
      let comps := subs.map (fun c =>
        let shifted := c.shiftBy st.mt
        (shifted.getDuration, shifted))
      let uniform : Option MusicTime :=
        match comps.head? with
        | some (d, _) => if comps.all (fun p => p.1 == d) then some d else none
        | none => none
      match uniform with
      | some dur =>
          .ok ({ st with
                 tracks := comps.foldl (fun trs p => addComposition trs p.2) st.tracks },
               dur)
      | none => .error (.nonUniformSplitPanic (comps.map Prod.fst))
  | .rep num content => do
      let composed ← composeMS ts content
      let duration := composed.getDuration
      let looped := (List.range num).foldl
        (fun (acc : TrackMap × MusicTime) _ =>
          (addComposition acc.1 (composed.shiftBy acc.2), mtAdd ts acc.2 duration))
        (st.tracks, MusicTime.zero)
      let total := (List.range num).foldl
        (fun td _ => mtAdd ts td duration) MusicTime.zero
      .ok ({ st with tracks := looped.1 }, total)
termination_by p => (sizeOf p, 0)
decreasing_by all_goals (simp_wf; omega)

/-- Composition of each split branch in order (`branches.map(compose)`); a
panic in any branch propagates. -/
def composeList (ts : TimeSignature) :
    List (List MusicPrimitive) → Except ComposeErr (List Composition)
  | [] => .ok []
  | b :: bs => do
      let c ← composeMS ts b
      let cs ← composeList ts bs
      .ok (c :: cs)
termination_by bs => (sizeOf bs, 0)
decreasing_by all_goals (simp_wf; omega)

/-- The composer's walk over the primitives, advancing the cursor by each
step's duration (`current_mt = current_mt.with(ts) + duration`). -/
def composeWalk (ts : TimeSignature) (st : CState) :
    List MusicPrimitive → Except ComposeErr CState
  | [] => .ok st
  | p :: ps => do
      let r ← composePrim ts st p
      composeWalk ts { r.1 with mt := mtAdd ts r.1.mt r.2 } ps
termination_by ps => (sizeOf ps, 0)
decreasing_by all_goals (simp_wf; omega)

/-- `MusicString::compose`: walk the primitives from the fresh state
(cursor zero, `SineWave`, volume 50) and collect the track map's values. -/
def composeMS (ts : TimeSignature) (ms : List MusicPrimitive) :
    Except ComposeErr Composition := do
  let st ← composeWalk ts initState ms
  .ok { tracks := st.tracks.map Prod.snd, timeSignature := ts }
termination_by (sizeOf ms, 1)
decreasing_by all_goals omega

end

/-- Iterated cursor advance: `mtNSmul ts d k` is the `MusicTime` obtained by
adding `d` to zero `k` times with normalization — exactly the offsets
`0, d, 2d, …` and the total advance the `Repeat` arm of the composer
accumulates. -/
def mtNSmul (ts : TimeSignature) (d : MusicTime) : ℕ → MusicTime
  | 0 => MusicTime.zero
  | k + 1 => mtAdd ts (mtNSmul ts d k) d

/-- All events of a track map, in order. -/
def eventsOfTM (m : TrackMap) : List Event :=
  (m.map (fun p => p.2.events)).flatten

/-- All events of a composition, in order. -/
def eventsOfComp (c : Composition) : List Event :=
  (c.tracks.map Track.events).flatten

end Backend

namespace MT

/-! The music-turtles crate: the scanner (`src/music-turtles/src/cfg/scan.rs`),
the scheduler (`scheduler.rs`) and the MIDI player's velocity computation
(`player.rs`).  This crate's `cfg/mod.rs` is not among the given sources;
its AST (which `scan.rs` constructs) is modelled from the spec's §3 data
model: `MusicPrimitive` here has a general `Transform` variant with
`Repeat`, `Transpose` and `Compression` transforms. -/

/-- Modelled from the spec: `MusicTransform` — `Repeat{n}`, `Transpose{k}`,
or `Compression{factor}` where the factor is a `TimeCompression` newtype
around an exact rational. -/
inductive MusicTransform where
  | rep (num : ℕ)
  | transpose (semitones : ℤ)
  | compression (factor : ℚ)
deriving DecidableEq, Repr

/-- Music-turtles `TerminalNote`. -/
inductive TerminalNote where
  | note (pitch : Pitch)
  | rest
deriving DecidableEq, Repr

/-- Music-turtles `MetaControl`. -/
inductive MetaControl where
  | changeInstrument (i : Instrument)
  | changeVolume (v : Volume)
deriving DecidableEq, Repr

/-- Music-turtles `Terminal`. -/
inductive Terminal where
  | music (duration : MusicTime) (note : TerminalNote)
  | meta (c : MetaControl)
deriving DecidableEq, Repr

/-- Music-turtles `Symbol`. -/
inductive Symbol where
  | nt (name : String)
  | t (t : Terminal)
deriving DecidableEq, Repr

/-- Modelled from the spec: the music-turtles `MusicPrimitive` —
`Simple`, `Split{branches}` or `Transform{transform, content}`. -/
inductive MusicPrimitive where
  | simple (s : Symbol)
  | split (branches : List (List MusicPrimitive))
  | transform (t : MusicTransform) (content : List MusicPrimitive)

/-- Music-turtles `MusicString`. -/
abbrev MusicString := List MusicPrimitive

/-- The scanner error type of `scan.rs` (`Generic`, `ExpectedEither`),
extended with two constructors for behaviours a pure model must name:
`unwrapPanic` models the Rust panics in `InstrumentScanner`/`VolumeScanner`
(`parse().unwrap()`), and `fuel` marks recursion-fuel exhaustion — it is
never produced when the fuel exceeds the input length. -/
inductive ScanErr where
  | generic (msg : String)
  | expectedEither (a b : String)
  | unwrapPanic (msg : String)
  | fuel
deriving DecidableEq, Repr

/-- A scanner, `(input) → (value, remaining) | error`.  Rust `&str` slices
are modelled as `List Char` (the scanned inputs are ASCII, where Rust's
byte indexing and `char` iteration coincide). -/
abbrev ScanM (α : Type) := List Char → Except ScanErr (α × List Char)

/-- The `scan_map` combinator. -/
def mapScan (s : ScanM α) (f : α → β) : ScanM β := fun input =>
  (s input).map (fun r => (f r.1, r.2))

/-- The `scan_map_input` combinator. -/
def mapInputScan (s : ScanM α) (f : List Char → List Char) : ScanM α := fun input =>
  s (f input)

/-- The `concat` combinator. -/
def concatScan (s : ScanM α) (t : ScanM β) : ScanM (α × β) := fun input => do
  let (u, rest) ← s input
  let (v, r2) ← t rest
  .ok ((u, v), r2)

/-- The `consume` combinator: requires the inner scanner to leave no
remaining input. -/
def consumeScan (s : ScanM α) : ScanM α := fun input => do
  let r ← s input
  if r.2.isEmpty then .ok r
  else .error (.generic "Did not consume entire input")

/-- The `disjoint` combinator: dispatch on a literal prefix. -/
def disjointScan (p1 : List Char) (s1 : ScanM α) (p2 : Option (List Char))
    (s2 : ScanM α) : ScanM α := fun input =>
  if p1.isPrefixOf input then s1 input
  else
    match p2 with
    | some p =>
      if p.isPrefixOf input then s2 input
      else .error (.expectedEither (String.mk p1) (String.mk p))
    | none => s2 input

/-- The helper `find_matching`: with one opening bracket already consumed,
the index of the closing bracket that matches it, counting only the same
bracket kind. -/
def findMatchingAux (openC closeC : Char) : List Char → ℕ → ℤ → Option ℕ
  | [], _, _ => none
  | c :: rest, i, stack =>
    if c = openC then findMatchingAux openC closeC rest (i + 1) (stack + 1)
    else if c = closeC then
      if stack - 1 = 0 then some i
      else findMatchingAux openC closeC rest (i + 1) (stack - 1)
    else findMatchingAux openC closeC rest (i + 1) stack

/-- Entry point of `find_matching` (stack starts at 1). -/
def findMatching (input : List Char) (openC closeC : Char) : Option ℕ :=
  findMatchingAux openC closeC input 0 1

/-- Rust `str::parse::<uint>` on an ASCII slice: an optional `+` sign, then
one or more digits, and the value must fit the target width (`bound` is one
past the maximum). -/
def parseUInt (bound : ℕ) (cs : List Char) : Option ℕ :=
  let ds := if cs.head? = some '+' then cs.tail else cs
  if ds.isEmpty || !ds.all Char.isDigit then none
  else
    let v := ds.foldl (fun acc c => acc * 10 + (c.toNat - '0'.toNat)) 0
    if v < bound then some v else none

/-- Rust `str::parse::<int>`: an optional sign, then digits, bounded. -/
def parseInt (bound : ℤ) (cs : List Char) : Option ℤ :=
  match cs.head? with
  | some '-' => (parseUInt bound.toNat cs.tail).map (fun v => -(v : ℤ))
  | _ => (parseUInt bound.toNat cs).map (fun v => (v : ℤ))

/-- One past the maximum of Rust `u32`. -/
def u32Bound : ℕ := 4294967296

/-- One past the maximum of Rust `usize` (64-bit). -/
def usizeBound : ℕ := 18446744073709551616

/-- Magnitude bound of Rust `isize`/`i64` (the negative range's extra value
is immaterial here). -/
def isizeBound : ℤ := 9223372036854775808

/-- Modelled from the spec: `Ratio::new` builds the exact rational `n / d`.
(The num crate panics on a zero denominator; the scanners below only reach
this with the checks the source makes, and `ℚ` yields 0 there.) -/
def ratioNew (n : ℤ) (d : ℤ) : ℚ := (n : ℚ) / (d : ℚ)

/-- `NoteScanner` (scan.rs lines 352–415): `_` is a rest; otherwise an
optional octave digit (default 4), a letter `a..g` case-insensitively mapped
to `a:0, b:2, c:3, d:5, e:7, f:8, g:10`, then `#` adds 1 or `b` takes the
flat `(note + 11) % 12`. -/
def noteScan : ScanM TerminalNote := fun input =>
  match input with
  | [] => .error (.generic "Expected Note: octave number or note letter")
  | first :: rest1 =>
    if first = '_' then .ok (.rest, rest1)
    else
      let octave : ℤ := if first.isDigit then (first.toNat - '0'.toNat : ℕ) else 4
      let consumedBase : ℕ := if first.isDigit then 2 else 1
      let nxt? : Option Char := if first.isDigit then rest1.head? else some first
      let afterLetter : List Char := if first.isDigit then rest1.tail else rest1
      match nxt? with
      | none =>
        .error (.generic ("Expected letter [a-g] after octave number after " ++
          first.toString))
      | some nxt =>
        let lower := nxt.toLower
        if 'a' ≤ lower ∧ lower ≤ 'g' then
          let note0 : ℤ :=
            match lower with
            | 'a' => 0
            | 'b' => 2
            | 'c' => 3
            | 'd' => 5
            | 'e' => 7
            | 'f' => 8
            | 'g' => 10
            | _ => 0
          let withAcc : ℤ × ℕ :=
            match afterLetter.head? with
            | some '#' => (note0 + 1, consumedBase + 1)
            | some 'b' => ((note0 + 11) % 12, consumedBase + 1)
            | _ => (note0, consumedBase)
          .ok (.note ⟨octave, withAcc.1⟩, input.drop withAcc.2)
        else
          .error (.generic ("Expected Note: note name " ++ nxt.toString ++
            " is not a valid note."))

/-- `DurationScanner` (scan.rs lines 417–449): `<inner>` where a
`/`-containing inner is parsed as a ratio (defaulting to one beat when either
part fails to parse as `u32`), and any other inner is parsed as `u32`
whole beats (defaulting to zero); without a leading `<` the default is one
beat and nothing is consumed. -/
def durationScan : ScanM MusicTime := fun input =>
  match input with
  | '<' :: rest =>
    match findMatching rest '<' '>' with
    | some e =>
      let dur := rest.take e
      let remaining := input.drop (e + 2)
      if dur.contains '/' then
        let parts := dur.splitOn '/'
        let p1 := parts.headD []
        let p2 := parts.tail.head?
        match parseUInt u32Bound p1, p2.bind (parseUInt u32Bound) with
        | some n, some d => .ok (⟨0, ratioNew n d⟩, remaining)
        | _, _ => .ok (MusicTime.beats 1, remaining)
      else
        .ok (MusicTime.beats ((parseUInt u32Bound dur).getD 0), remaining)
    | none => .error (.generic "Expected '>'")
  | _ => .ok (MusicTime.beats 1, input)

/-- `FractionScanner` (scan.rs lines 451–472): `num/denom` over `isize`,
a lone numerator meaning denominator 1, and a parse failure of the part
after `/` also meaning denominator 1 (the Rust `(Some, None)` arm). -/
def fractionScan : ScanM ℚ := fun input =>
  let parts := input.splitOn '/'
  let p1 := parts.headD []
  let p2 := parts.tail.head?
  match parseInt isizeBound p1, p2.bind (parseInt isizeBound) with
  | some n, some d =>
    if d = 0 then .error (.generic "Denominator cannot be zero")
    else .ok (ratioNew n d, [])
  | some n, none => .ok (ratioNew n 1, [])
  | none, _ => .error (.generic "Expected fraction in the form of num/denom")

/-- `MusicTransformScanner` (scan.rs lines 272–311): `x` then a `usize`, `T`
then an `isize`, or `>>` then a fraction whose reciprocal becomes the
compression factor. -/
def musicTransformScan : ScanM MusicTransform := fun input =>
  match input with
  | [] => .error (.generic "Expected MusicTransform")
  | first :: rest =>
    if first = 'x' then
      match parseUInt usizeBound rest with
      | some n => .ok (.rep n, [])
      | none => .error (.generic "Expected positive integer after 'x'")
    else if first = 'T' then
      match parseInt isizeBound rest with
      | some k => .ok (.transpose k, [])
      | none => .error (.generic "Expected integer after 'T'")
    else if first = '>' ∧ rest.head? = some '>' then
      match consumeScan fractionScan rest.tail with
      | .ok (f, r) => .ok (.compression f⁻¹, r)
      | .error _ => .error (.generic "Expected fraction after '>>'")
    else .error (.generic ("Expected MusicTransform but found " ++ first.toString))

/-- The non-terminal character class of `NonTerminalScanner`
(alphabetic, digit, or one of minus, slash, hash and question mark; Rust's
Unicode `is_alphabetic` is modelled by ASCII `Char.isAlpha`, which agrees on
the scanned inputs). -/
def isNTChar (c : Char) : Bool :=
  c.isAlpha || c.isDigit || c = '-' || c = '/' || c = '#' || c = '?'

/-- `NonTerminalScanner` (scan.rs lines 509–538): the longest prefix of
non-terminal characters, which must be non-empty. -/
def nonTerminalScan : ScanM String := fun input =>
  match input with
  | [] => .error (.generic "Expected NonTerminal, but it's an empty string")
  | c :: _ =>
    if isNTChar c then
      let nt := input.takeWhile isNTChar
      .ok (String.mk nt, input.drop nt.length)
    else .error (.generic ("Expected NonTerminal but got " ++ c.toString))

/-- Modelled from the spec: the instrument table's case-insensitive match
(`FromStr for Instrument`, not among the given sources); unknown names do
not parse. -/
def instrumentFromStr (s : String) : Option Instrument :=
  let l := s.toLower
  if l = "sine" ∨ l = "sinewave" then some Instrument.sineWave
  else if l = "piano" then some Instrument.piano
  else none

/-- `InstrumentScanner` (scan.rs lines 540–564): an alphabetic first
character, then alphanumeric or `_` characters; the breaking character is
consumed by the Rust `chars` iterator and dropped from the remaining input.
The `parse().unwrap()` panics on an unknown instrument. -/
def instrumentScan : ScanM Instrument := fun input =>
  match input with
  | [] => .error (.generic "Expected Instrument")
  | c :: tl =>
    if c.isAlpha then
      let body := tl.takeWhile (fun ch => ch.isAlphanum || ch = '_')
      let name := c :: body
      let remaining :=
        if name.length = input.length then [] else input.drop (name.length + 1)
      match instrumentFromStr (String.mk name) with
      | some i => .ok (i, remaining)
      | none => .error (.unwrapPanic "instrument parse failed")
    else .error (.generic "Expected Instrument")

/-- `VolumeScanner` (scan.rs lines 566–590): a non-empty digit prefix; the
breaking character is consumed and dropped, as in `InstrumentScanner`.  The
numeric parse is modelled unbounded (the Rust `Volume` integer width is not
among the given sources). -/
def volumeScan : ScanM Volume := fun input =>
  match input with
  | [] => .error (.generic "Expected Volume")
  | c :: tl =>
    if c.isDigit then
      let body := tl.takeWhile Char.isDigit
      let digits := c :: body
      let remaining :=
        if digits.length = input.length then [] else input.drop (digits.length + 1)
      .ok (digits.foldl (fun acc ch => acc * 10 + (ch.toNat - '0'.toNat)) 0, remaining)
    else .error (.generic "Expected Volume")

/-- `MetaControlScanner` (scan.rs lines 474–507): `i=` then an instrument or
`v=` then a volume. -/
def metaControlScan : ScanM MetaControl := fun input =>
  match input with
  | [] => .error (.generic "Expected MetaControl")
  | first :: rest =>
    match rest with
    | '=' :: rest2 =>
      if first = 'i' then mapScan instrumentScan MetaControl.changeInstrument rest2
      else if first = 'v' then mapScan volumeScan MetaControl.changeVolume rest2
      else
        .error (.generic ("Expected MetaControl: i= or v=, found " ++
          first.toString ++ "="))
    | _ =>
      .error (.generic ("Expected '=' to follow meta control character " ++
        first.toString))

/-- `TerminalScanner` (scan.rs lines 331–350): a leading `:` dispatches to
the meta-control scanner (dropping the `:`), otherwise a note followed by an
optional duration. -/
def terminalScan : ScanM Terminal :=
  disjointScan [':']
    (mapInputScan (mapScan metaControlScan Terminal.meta) (·.drop 1))
    none
    (mapScan (concatScan noteScan durationScan)
      (fun p => Terminal.music p.2 p.1))

/-- `SymbolScanner` (scan.rs lines 313–329): a leading `:` dispatches to the
terminal scanner (dropping the `:`), otherwise a non-terminal. -/
def symbolScan : ScanM Symbol :=
  disjointScan [':']
    (mapScan (mapInputScan terminalScan (·.drop 1)) Symbol.t)
    none
    (mapScan nonTerminalScan Symbol.nt)

mutual

/-- `MusicStringScanner` (scan.rs lines 152–178): repeatedly trim leading
whitespace and scan one primitive until the input is exhausted; the Rust
`while` loop is written as fuel-indexed recursion (fuel beyond the input
length never runs out, since every primitive consumes input). -/
def musicStringScanF : ℕ → ScanM (List MusicPrimitive)
  | 0, _ => .error .fuel
  | fuel + 1, input =>
    if input.isEmpty then .ok ([], input)
    else
      let rem := input.dropWhile Char.isWhitespace
      if rem.isEmpty then .ok ([], rem)
      else do
        let (p, rest) ← musicPrimitiveScanF fuel rem
        let (ps, rest2) ← musicStringScanF fuel rest
        .ok (p :: ps, rest2)

/-- `MusicPrimitiveScanner` (scan.rs lines 180–198): dispatch on `{` to the
split scanner, on `[` to the repeat scanner, else a simple symbol. -/
def musicPrimitiveScanF : ℕ → ScanM MusicPrimitive
  | 0, _ => .error .fuel
  | fuel + 1, input =>
    disjointScan ['{'] (musicPrimitiveSplitScanF fuel)
      none
      (disjointScan ['['] (musicPrimitiveRepeatScanF fuel)
        none
        (mapScan symbolScan MusicPrimitive.simple))
      input

/-- `MusicPrimitiveSplitScanner` (scan.rs lines 200–231): find the matching
`}`, split the inner region on every `|` (the Rust `inner.split('|')` — with
no regard for nesting), scan the first part with `consume` and the rest
plainly. -/
def musicPrimitiveSplitScanF : ℕ → ScanM MusicPrimitive
  | 0, _ => .error .fuel
  | fuel + 1, input =>
    match input with
    | '{' :: rest =>
      match findMatching rest '{' '}' with
      | some e =>
        let inner := rest.take e
        let parts := inner.splitOn '|'
        let firstPart := parts.headD []
        let restParts := parts.tail
        (do
          let (ms, _) ← consumeScan (musicStringScanF fuel) firstPart
          let branches ← restParts.foldlM
            (fun (acc : List (List MusicPrimitive)) s => do
              let (m, _) ← musicStringScanF fuel s
              pure (acc ++ [m]))
            [ms]
          .ok (MusicPrimitive.split branches, rest.drop (e + 1)))
      | none => .error (.generic "Expected '\x7d'")
    | _ => .error (.generic "Expected '\x7b'")

/-- `MusicPrimitiveRepeatScanner` (scan.rs lines 233–270): `[` then a
transform up to the first `]`, then `[`, a music string up to the matching
`]` (scanned first, with `consume`), then the transform (also `consume`d). -/
def musicPrimitiveRepeatScanF : ℕ → ScanM MusicPrimitive
  | 0, _ => .error .fuel
  | fuel + 1, input =>
    match input with
    | '[' :: _ =>
      match input.findIdx? (· = ']') with
      | some j =>
        let repeatNum := (input.drop 1).take (j - 1)
        match (input.drop (j + 1)).head? with
        | some '[' =>
          let rest := input.drop (j + 2)
          match findMatching rest '[' ']' with
          | some k =>
            (do
              let (ms, _) ← consumeScan (musicStringScanF fuel) (rest.take k)
              let (tr, _) ← consumeScan musicTransformScan repeatNum
              .ok (MusicPrimitive.transform tr ms, rest.drop (k + 1)))
          | none => .error (.generic "Expected ']'")
        | _ => .error (.generic "Expected '['")
      | none => .error (.generic "Expected ']'")
    | _ => .error (.generic "Expected '['")

end

/-- The `MusicStringScanner` entry point: fuel one past the input length is
always sufficient (each loop iteration consumes at least one character). -/
def musicStringScan : ScanM (List MusicPrimitive) := fun input =>
  musicStringScanF (2 * input.length + 2) input

/-! The scheduler, from `src/music-turtles/src/scheduler.rs`.  `Seconds`
(Rust `f32`/`f64`) is modelled as `ℚ`, per the spec's §9 note that musical
time is exact rational and seconds appear only at the player boundary. -/

/-- Modelled from the spec: `Track::get_end(ts)` is the last event's end
time, `None` for a track with no events. -/
def trackGetEnd (ts : TimeSignature) (t : Track) : Option MusicTime :=
  t.events.getLast?.map (Event.endMT ts)

/-- Modelled from the spec: `Track::get_events_starting_between(lo, hi, be_exclusive)`
collects the events whose start lies in the half-open `[lo, hi)`; the
scheduler always passes `be_exclusive = false` (start-inclusive). -/
def trackEventsBetween (t : Track) (lo hi : MusicTime) : List Event :=
  t.events.filter (fun e => mtLeB lo e.start && mtLtB e.start hi)

/-- The scheduler state (`Scheduler` in scheduler.rs): per-track cursors,
look-ahead window, and the looping configuration. -/
structure Scheduler where
  bpm : ℚ
  timeSignature : TimeSignature
  tracks : List (Track × MusicTime)
  lookahead : MusicTime
  looped : Bool
  loopTime : MusicTime
deriving Repr

/-- A `ScheduledSound`: the seconds-denominated event the scheduler emits. -/
structure ScheduledSound where
  time : ℚ
  duration : ℚ
  volume : Volume
  instrument : Instrument
  pitch : Pitch
deriving DecidableEq, Repr

/-- Variant index of an instrument, for the derived Rust `PartialOrd`. -/
def instrumentIdx : Instrument → ℕ
  | .sineWave => 0
  | .piano => 1

/-- The derived lexicographic `PartialOrd` on `ScheduledSound` (field order:
time, duration, volume, instrument, pitch), as `sort_by(partial_cmp)` uses. -/
def ssLeB (a b : ScheduledSound) : Bool :=
  if a.time < b.time then true
  else if b.time < a.time then false
  else if a.duration < b.duration then true
  else if b.duration < a.duration then false
  else if a.volume < b.volume then true
  else if b.volume < a.volume then false
  else if instrumentIdx a.instrument < instrumentIdx b.instrument then true
  else if instrumentIdx b.instrument < instrumentIdx a.instrument then false
  else if a.pitch.octave < b.pitch.octave then true
  else if b.pitch.octave < a.pitch.octave then false
  else a.pitch.semitone ≤ b.pitch.semitone

/-- Insertion into a sorted list (the sorting step of
`get_next_events_and_update`; any correct stable sort yields the same
list). -/
def insertLe (le : α → α → Bool) (x : α) : List α → List α
  | [] => [x]
  | y :: ys => if le x y then x :: y :: ys else y :: insertLe le x ys

/-- Insertion sort by a boolean relation. -/
def sortByLe (le : α → α → Bool) : List α → List α
  | [] => []
  | x :: xs => insertLe le x (sortByLe le xs)

/-- The `while b && cur > limit { cur = cur - limit }` loops of
`get_next_events_and_update` (lines 89–91 and 96–98), fuel-indexed: `none`
models non-termination (fuel exhaustion at a state where the loop guard
still holds). -/
def mtLoopReduce (ts : TimeSignature) (b : Bool) (limit : MusicTime) :
    ℕ → MusicTime → Option MusicTime
  | 0, cur => if b && mtLtB limit cur then none else some cur
  | f + 1, cur =>
    if b && mtLtB limit cur then mtLoopReduce ts b limit f (mtSub ts cur limit)
    else some cur

/-- The `while se.time < current_track_pos { se.time += loop_time_s }`
projection loop (lines 139–141), fuel-indexed. -/
def qLoopProject (t inc : ℚ) : ℕ → ℚ → Option ℚ
  | 0, x => if x < t then none else some x
  | f + 1, x => if x < t then qLoopProject t inc f (x + inc) else some x

/-- Conversion of a collected event to a `ScheduledSound` (lines 124–136):
seconds start, and duration in seconds scaled by the deliberate 0.9 release
gap. -/
def toScheduled (ts : TimeSignature) (bpm : ℚ) (instrument : Instrument)
    (e : Event) : ScheduledSound :=
  { time := e.start.toSeconds ts bpm,
    duration := ((beatAsMusicTime e.duration).toSeconds ts bpm) * (9 / 10),
    volume := e.volume, instrument := instrument, pitch := e.pitch }

/-- `Scheduler::ended` (scheduler.rs lines 77–83): every track that has an
end must have its cursor strictly past it; tracks with no events are dropped
by the `filter_map` and do not prevent ending.  The `looped` flag is not
consulted. -/
def Scheduler.ended (s : Scheduler) : Bool :=
  (s.tracks.filterMap (fun tc =>
    (trackGetEnd s.timeSignature tc.1).map (fun e => mtLtB e tc.2))).all id

/-- The `.map(|mut se| { if self.looped { while … } se })` projection step
(scheduler.rs lines 137–143): a looped scheduler projects each sound's time
forward by whole loops until it is not before the current position. -/
def projectSound (looped : Bool) (t loopTimeS : ℚ) (fuel : ℕ)
    (se : ScheduledSound) : Option ScheduledSound :=
  if looped then
    (qLoopProject t loopTimeS fuel se.time).map (fun t2 => { se with time := t2 })
  else some se

/-- The event collection for one track (scheduler.rs lines 106–120): when
the window wraps, events from the cursor to the loop end plus events from
zero to the wrapped window end; otherwise events from the cursor to the
window end. -/
def perTrackEvents (looping : Bool) (loopTime endMt : MusicTime)
    (track : Track) (cursor : MusicTime) : List Event :=
  if looping then
    trackEventsBetween track cursor loopTime ++
    trackEventsBetween track MusicTime.zero endMt
  else trackEventsBetween track cursor endMt

/-- One track's step of the `flat_map` in `get_next_events_and_update`
(scheduler.rs lines 103–145): collect the window's events, set the cursor to
the window end, convert to `ScheduledSound`s and project when looped. -/
def perTrackStep (s : Scheduler) (fuel : ℕ) (t : ℚ) (looping : Bool)
    (endMt : MusicTime) (tc : Track × MusicTime) :
    Option ((Track × MusicTime) × List ScheduledSound) := do
  let sounds ← (perTrackEvents looping s.loopTime endMt tc.1 tc.2).mapM
    (fun e => projectSound s.looped t (s.loopTime.toSeconds s.timeSignature s.bpm)
      fuel (toScheduled s.timeSignature s.bpm tc.1.instrument e))
  some ((tc.1, endMt), sounds)

/-- `Scheduler::get_next_events_and_update` (scheduler.rs lines 86–149),
with one fuel bound shared by every internal `while` loop; the result is
`none` exactly when some loop fails to terminate within the fuel. -/
def Scheduler.getNextEvents (fuel : ℕ) (s : Scheduler) (currentTrackPos : ℚ) :
    Option (List ScheduledSound × Scheduler) := do
  let cur ← mtLoopReduce s.timeSignature s.looped s.loopTime fuel
    (MusicTime.fromSeconds s.timeSignature s.bpm currentTrackPos)
  let le ←
    if s.looped && mtLtB s.loopTime (mtAdd s.timeSignature cur s.lookahead) then
      (mtLoopReduce s.timeSignature true s.loopTime fuel
        (mtAdd s.timeSignature cur s.lookahead)).map (fun e => (true, e))
    else some (false, mtAdd s.timeSignature cur s.lookahead)
  let perTrack ← s.tracks.mapM (perTrackStep s fuel currentTrackPos le.1 le.2)
  some (sortByLe ssLeB ((perTrack.map Prod.snd).flatten),
    { s with tracks := perTrack.map Prod.fst })

/-! The MIDI player's velocity computation, from
`src/music-turtles/src/player.rs` line 142. -/

/-- The velocity byte `MidiPlayer::play` computes:
`((volume as f32 / 100.) * 128.) as u8`.  For integral volumes in `[0,100]`
the `f32` computation is exact enough that the truncation equals
`⌊volume · 128 / 100⌋` (the nearest integer boundary is at distance ≥ 1/25,
far above the `f32` rounding error; the `as u8` cast saturates at 255). -/
def midiVelocity (volume : ℕ) : ℕ :=
  min (volume * 128 / 100) 255

/-- The pair of velocity bytes `MidiPlayer::play` sends: the NoteOn and the
NoteOff messages both use the one computed `volume` value (player.rs lines
142, 174 and 179). -/
def midiPlayVelocities (volume : ℕ) : ℕ × ℕ :=
  (midiVelocity volume, midiVelocity volume)

/-! Statement helpers and concrete fixtures for the claims below. -/

/-- The ASCII digit character of an octave digit. -/
def octDigitChar (d : Fin 10) : Char := Char.ofNat ('0'.toNat + d)

/-- The note letter with index `i` (0 = a … 6 = g), upper- or lowercase. -/
def noteLetter (i : Fin 7) (upper : Bool) : Char :=
  Char.ofNat ((if upper then 'A'.toNat else 'a'.toNat) + i)

/-- A complete note-scanner input: optional octave digit, a letter, and an
optional accidental (`some true` is a sharp, `some false` a flat). -/
def noteInputChars (od : Option (Fin 10)) (i : Fin 7) (upper : Bool)
    (acc : Option Bool) : List Char :=
  (od.elim [] (fun d => [octDigitChar d])) ++ [noteLetter i upper] ++
    (match acc with
     | none => []
     | some true => ['#']
     | some false => ['b'])

/-- The octave the claim predicts: the leading digit, or 4 when absent. -/
def claimOctave (od : Option (Fin 10)) : ℤ := od.elim 4 (fun d => (d : ℤ))

/-- The semitone offset table of the claim:
`a:0, b:2, c:3, d:5, e:7, f:8, g:10`. -/
def claimBaseSemitone (i : Fin 7) : ℤ :=
  ([0, 2, 3, 5, 7, 8, 10] : List ℤ).getD i.val 0

/-- The semitone the claim predicts: the base offset, plus 1 for a sharp or
minus 1 for a flat, modulo 12. -/
def claimSemitone (i : Fin 7) (acc : Option Bool) : ℤ :=
  match acc with
  | none => claimBaseSemitone i
  | some true => (claimBaseSemitone i + 1) % 12
  | some false => (claimBaseSemitone i - 1) % 12

/-- A two-event sample track, for the concrete scheduler instances. -/
def sampleTrack : Track :=
  { identifier := TrackId.custom 0, instrument := Instrument.sineWave,
    events := [ { start := ⟨0, 0⟩, duration := 1, volume := 100, pitch := ⟨4, 0⟩ },
                { start := ⟨0, 2⟩, duration := 1, volume := 100, pitch := ⟨4, 2⟩ } ] }

/-- A looped scheduler over the sample track: bpm 120, 4/4, one-measure
look-ahead, one-measure loop. -/
def loopedScheduler : Scheduler :=
  { bpm := 120, timeSignature := ts44, tracks := [(sampleTrack, MusicTime.zero)],
    lookahead := MusicTime.measures 1, looped := true,
    loopTime := MusicTime.measures 1 }

/-- The looped scheduler with `loop_time` zero — the invalid-loop
configuration. -/
def zeroLoopScheduler : Scheduler :=
  { loopedScheduler with loopTime := MusicTime.zero }

/-- The looped scheduler with its track cursor far past the track's end. -/
def pastEndScheduler : Scheduler :=
  { loopedScheduler with tracks := [(sampleTrack, ⟨5, 0⟩)] }

end MT

/-! Arithmetic lemmas about the time algebra, shared by the claims below. -/

/-- Normalization preserves the total-beats semantics. -/
theorem tbQ_mtNormalize (ts : TimeSignature) (t : MusicTime) :
    tbQ ts (mtNormalize ts t) = tbQ ts t := by
  simp only [tbQ, mtNormalize]
  push_cast
  ring

/-- Addition is, semantically, addition of total beats. -/
theorem tbQ_mtAdd (ts : TimeSignature) (a b : MusicTime) :
    tbQ ts (mtAdd ts a b) = tbQ ts a + tbQ ts b := by
  rw [mtAdd, tbQ_mtNormalize]
  simp only [tbQ]
  push_cast
  ring

/-- Subtraction is, semantically, subtraction of total beats. -/
theorem tbQ_mtSub (ts : TimeSignature) (a b : MusicTime) :
    tbQ ts (mtSub ts a b) = tbQ ts a - tbQ ts b := by
  rw [mtSub, tbQ_mtNormalize]
  simp only [tbQ]
  push_cast
  ring

/-- Normalization really normalizes when the numerator is positive. -/
theorem isNorm_mtNormalize (ts : TimeSignature) (t : MusicTime)
    (hn : 0 < ts.num) : IsNorm ts (mtNormalize ts t) := by
  have hnq : (0 : ℚ) < (ts.num : ℚ) := by exact_mod_cast hn
  have hne : (ts.num : ℚ) ≠ 0 := ne_of_gt hnq
  constructor
  · have h1 : ((⌊t.beat / (ts.num : ℚ)⌋ : ℤ) : ℚ) ≤ t.beat / (ts.num : ℚ) :=
      Int.floor_le _
    have h2 := mul_le_mul_of_nonneg_left h1 (le_of_lt hnq)
    rw [mul_div_cancel₀ _ hne] at h2
    simp only [mtNormalize]
    linarith
  · have h1 : t.beat / (ts.num : ℚ) < (⌊t.beat / (ts.num : ℚ)⌋ : ℚ) + 1 :=
      Int.lt_floor_add_one _
    have h2 := (div_lt_iff₀ hnq).mp h1
    simp only [mtNormalize]
    nlinarith

/-- A normalized value is a fixed point of normalization. -/
theorem mtNormalize_eq_self (ts : TimeSignature) (t : MusicTime)
    (hn : 0 < ts.num) (h : IsNorm ts t) : mtNormalize ts t = t := by
  have hnq : (0 : ℚ) < (ts.num : ℚ) := by exact_mod_cast hn
  have hfl : ⌊t.beat / (ts.num : ℚ)⌋ = 0 := by
    rw [Int.floor_eq_zero_iff]
    constructor
    · exact div_nonneg h.1 (le_of_lt hnq)
    · rw [div_lt_one hnq]
      exact h.2
  simp [mtNormalize, hfl]

/-- The sum of two times is normalized. -/
theorem isNorm_mtAdd (ts : TimeSignature) (a b : MusicTime) (hn : 0 < ts.num) :
    IsNorm ts (mtAdd ts a b) := isNorm_mtNormalize ts _ hn

/-- The difference of two times is normalized. -/
theorem isNorm_mtSub (ts : TimeSignature) (a b : MusicTime) (hn : 0 < ts.num) :
    IsNorm ts (mtSub ts a b) := isNorm_mtNormalize ts _ hn

/-- `MusicTime.zero` is normalized. -/
theorem isNorm_zero (ts : TimeSignature) (hn : 0 < ts.num) :
    IsNorm ts MusicTime.zero := by
  constructor
  · simp [MusicTime.zero]
  · simp only [MusicTime.zero]
    exact_mod_cast hn

/-- On normalized values the lexicographic order agrees with the total-beats
order. -/
theorem mtLtB_iff_tbQ (ts : TimeSignature) (a b : MusicTime) (hn : 0 < ts.num)
    (ha : IsNorm ts a) (hb : IsNorm ts b) :
    mtLtB a b = true ↔ tbQ ts a < tbQ ts b := by
  have hnq : (0 : ℚ) < (ts.num : ℚ) := by exact_mod_cast hn
  simp only [mtLtB, Bool.or_eq_true, Bool.and_eq_true, decide_eq_true_eq,
    beq_iff_eq]
  constructor
  · rintro (hm | ⟨heq, hbeat⟩)
    · have hm1 : (a.measure : ℚ) + 1 ≤ (b.measure : ℚ) := by
        exact_mod_cast Int.add_one_le_of_lt hm
      simp only [tbQ]
      nlinarith [ha.2, hb.1]
    · simp only [tbQ, heq]
      linarith
  · intro h
    rcases lt_trichotomy a.measure b.measure with hm | hm | hm
    · exact Or.inl hm
    · refine Or.inr ⟨hm, ?_⟩
      simp only [tbQ, hm] at h
      linarith
    · exfalso
      have hm1 : (b.measure : ℚ) + 1 ≤ (a.measure : ℚ) := by
        exact_mod_cast Int.add_one_le_of_lt hm
      simp only [tbQ] at h
      nlinarith [hb.2, ha.1]

/-- The iterated advance is, semantically, `k` times the step. -/
theorem tbQ_mtNSmul (ts : TimeSignature) (d : MusicTime) (k : ℕ) :
    tbQ ts (Backend.mtNSmul ts d k) = (k : ℚ) * tbQ ts d := by
  induction k with
  | zero => simp [Backend.mtNSmul, MusicTime.zero, tbQ]
  | succ k ih =>
    rw [Backend.mtNSmul, tbQ_mtAdd, ih]
    push_cast
    ring

theorem foldl_max_le_iff (l : List ℚ) (a B : ℚ) :
    l.foldl max a ≤ B ↔ a ≤ B ∧ ∀ x ∈ l, x ≤ B := by
  induction l generalizing a with
  | nil => simp
  | cons y ys ih =>
    rw [List.foldl_cons, ih]
    constructor
    · rintro ⟨hmax, hall⟩
      exact ⟨le_trans (le_max_left a y) hmax,
        fun x hx => by
          rcases List.mem_cons.mp hx with rfl | hx
          · exact le_trans (le_max_right a x) hmax
          · exact hall x hx⟩
    · rintro ⟨ha, hall⟩
      exact ⟨max_le ha (hall y (List.mem_cons_self y ys)),
        fun x hx => hall x (List.mem_cons_of_mem _ hx)⟩

theorem le_foldl_max_seed (l : List ℚ) (a : ℚ) : a ≤ l.foldl max a :=
  ((foldl_max_le_iff l a _).mp (le_refl _)).1

theorem le_foldl_max_mem (l : List ℚ) (a x : ℚ) (hx : x ∈ l) : x ≤ l.foldl max a :=
  ((foldl_max_le_iff l a _).mp (le_refl _)).2 x hx

theorem foldl_max_eq_seed_or_mem (l : List ℚ) (a : ℚ) :
    l.foldl max a = a ∨ l.foldl max a ∈ l := by
  induction l generalizing a with
  | nil => exact Or.inl rfl
  | cons y ys ih =>
    rw [List.foldl_cons]
    rcases ih (max a y) with h | h
    · rcases le_total a y with hay | hya
      · right
        rw [h, max_eq_right hay]
        exact List.mem_cons_self y ys
      · left
        rw [h, max_eq_left hya]
    · right
      exact List.mem_cons_of_mem _ h

theorem tbQ_mtMax (ts : TimeSignature) (a b : MusicTime) (hn : 0 < ts.num)
    (ha : IsNorm ts a) (hb : IsNorm ts b) :
    tbQ ts (mtMax a b) = max (tbQ ts a) (tbQ ts b) ∧ IsNorm ts (mtMax a b) := by
  rw [mtMax]
  by_cases h : mtLtB a b = true
  · rw [if_pos h]
    have := (mtLtB_iff_tbQ ts a b hn ha hb).mp h
    exact ⟨(max_eq_right (le_of_lt this)).symm, hb⟩
  · rw [if_neg h]
    have hnot : ¬ tbQ ts a < tbQ ts b := fun hc =>
      h ((mtLtB_iff_tbQ ts a b hn ha hb).mpr hc)
    exact ⟨(max_eq_left (le_of_not_lt hnot)).symm, ha⟩

theorem mtMax_fold_events (ts : TimeSignature) (hn : 0 < ts.num)
    (es : List Event) (acc : MusicTime) (hacc : IsNorm ts acc) :
    IsNorm ts (es.foldl (fun a e => mtMax a (e.endMT ts)) acc) ∧
    tbQ ts (es.foldl (fun a e => mtMax a (e.endMT ts)) acc) =
      (es.map (fun e => tbQ ts (e.endMT ts))).foldl max (tbQ ts acc) := by
  induction es generalizing acc with
  | nil => exact ⟨hacc, rfl⟩
  | cons e es ih =>
    have hend : IsNorm ts (e.endMT ts) := isNorm_mtAdd ts _ _ hn
    have hm := tbQ_mtMax ts acc (e.endMT ts) hn hacc hend
    rw [List.foldl_cons, List.map_cons, List.foldl_cons]
    have := ih (mtMax acc (e.endMT ts)) hm.2
    refine ⟨this.1, ?_⟩
    rw [this.2, hm.1]

namespace Backend

/-! Equation lemmas for the composer (its mutual recursion is compiled by
well-founded recursion, so the defining equations are re-established once
here and used by `rw`). -/

/-- Defining equation of `composeWalk` on the empty string. -/
theorem composeWalk_nil (ts : TimeSignature) (st : CState) :
    composeWalk ts st [] = .ok st := by
  rw [composeWalk]

/-- Defining equation of `composeWalk` on a cons. -/
theorem composeWalk_cons (ts : TimeSignature) (st : CState) (p : MusicPrimitive)
    (ps : List MusicPrimitive) :
    composeWalk ts st (p :: ps) = (do
      let r ← composePrim ts st p
      composeWalk ts { r.1 with mt := mtAdd ts r.1.mt r.2 } ps) := by
  rw [composeWalk]

/-- Defining equation of `composeList` on the empty branch list. -/
theorem composeList_nil (ts : TimeSignature) : composeList ts [] = .ok [] := by
  rw [composeList]

/-- Defining equation of `composeList` on a cons. -/
theorem composeList_cons (ts : TimeSignature) (b : List MusicPrimitive)
    (bs : List (List MusicPrimitive)) :
    composeList ts (b :: bs) = (do
      let c ← composeMS ts b
      let cs ← composeList ts bs
      .ok (c :: cs)) := by
  rw [composeList]

/-- Defining equation of `composeMS`. -/
theorem composeMS_eq (ts : TimeSignature) (ms : List MusicPrimitive) :
    composeMS ts ms = (do
      let st ← composeWalk ts initState ms
      .ok { tracks := st.tracks.map Prod.snd, timeSignature := ts }) := by
  rw [composeMS]

/-- Defining equation of `composePrim` on a split. -/
theorem composePrim_split_eq (ts : TimeSignature) (st : CState)
    (bs : List (List MusicPrimitive)) :
    composePrim ts st (.split bs) = (do
      let subs ← composeList ts bs
      let comps := subs.map (fun c =>
        let shifted := c.shiftBy st.mt
        (shifted.getDuration, shifted))
      let uniform : Option MusicTime :=
        match comps.head? with
        | some (d, _) => if comps.all (fun p => p.1 == d) then some d else none
        | none => none
      match uniform with
      | some dur =>
          .ok ({ st with
                 tracks := comps.foldl (fun trs p => addComposition trs p.2) st.tracks },
               dur)
      | none => .error (.nonUniformSplitPanic (comps.map Prod.fst))) := by
  rw [composePrim]

/-- Defining equation of `composePrim` on a repeat. -/
theorem composePrim_rep_eq (ts : TimeSignature) (st : CState) (num : ℕ)
    (content : List MusicPrimitive) :
    composePrim ts st (.rep num content) = (do
      let composed ← composeMS ts content
      let duration := composed.getDuration
      let looped := (List.range num).foldl
        (fun (acc : TrackMap × MusicTime) _ =>
          (addComposition acc.1 (composed.shiftBy acc.2), mtAdd ts acc.2 duration))
        (st.tracks, MusicTime.zero)
      let total := (List.range num).foldl
        (fun td _ => mtAdd ts td duration) MusicTime.zero
      .ok ({ st with tracks := looped.1 }, total)) := by
  rw [composePrim]

/-- C1 (amended): composing a `Split` whose branch compositions are `subs`
succeeds iff the branch list is non-empty and all cursor-shifted branch
compositions have equal total durations (the code compares the durations of
the branches after shifting them by the cursor).  On success the shifted
branches are merged into the track map in order and the cursor advances by
the uniform duration (semantically, total beats add).  On a non-uniform or
empty split the composer panics — modelled as the
`nonUniformSplitPanic` error outcome carrying the branch durations — rather
than returning a `CompositionError::NonUniformSplit` value to the caller. -/
theorem split_uniformity_amended (ts : TimeSignature) (st : CState)
    (bs : List (List MusicPrimitive)) (subs : List Composition)
    (ps : List MusicPrimitive)
    (hbr : composeList ts bs = .ok subs) :
    ((composePrim ts st (.split bs)).isOk = true ↔
      (subs ≠ [] ∧ ∀ c ∈ subs, (c.shiftBy st.mt).getDuration =
        ((subs.map (fun c => (c.shiftBy st.mt).getDuration)).headD MusicTime.zero)))
    ∧ (∀ d₀, (subs.map (fun c => (c.shiftBy st.mt).getDuration)).head? = some d₀ →
        (∀ c ∈ subs, (c.shiftBy st.mt).getDuration = d₀) →
        composeWalk ts st (.split bs :: ps) =
          composeWalk ts { st with
            tracks := (subs.map (fun c => c.shiftBy st.mt)).foldl addComposition st.tracks,
            mt := mtAdd ts st.mt d₀ } ps
        ∧ tbQ ts (mtAdd ts st.mt d₀) = tbQ ts st.mt + tbQ ts d₀)
    ∧ ((subs = [] ∨ ∃ c ∈ subs, (c.shiftBy st.mt).getDuration ≠
          ((subs.map (fun c => (c.shiftBy st.mt).getDuration)).headD MusicTime.zero)) →
        composeWalk ts st (.split bs :: ps) =
          .error (.nonUniformSplitPanic
            (subs.map (fun c => (c.shiftBy st.mt).getDuration)))) := by
  have hsplit := composePrim_split_eq ts st bs
  rw [hbr] at hsplit
  simp only [Bind.bind, Except.bind] at hsplit
  rcases subs with _ | ⟨c, cs⟩
  · simp only [List.map_nil, List.head?_nil] at hsplit
    refine ⟨?_, ?_, ?_⟩
    · simp [hsplit, Except.isOk, Except.toBool]
    · intro d₀ h
      simp at h
    · intro _
      rw [composeWalk_cons, hsplit]
      simp [Bind.bind, Except.bind]
  · simp only [List.map_cons, List.head?_cons] at hsplit
    by_cases hallb :
        ((((c.shiftBy st.mt).getDuration, c.shiftBy st.mt) ::
          cs.map (fun x => ((x.shiftBy st.mt).getDuration, x.shiftBy st.mt))).all
          (fun p => p.1 == (c.shiftBy st.mt).getDuration)) = true
    · rw [if_pos hallb] at hsplit
      have hall : ∀ x ∈ c :: cs,
          (x.shiftBy st.mt).getDuration = (c.shiftBy st.mt).getDuration := by
        intro x hx
        rcases List.mem_cons.mp hx with rfl | hx
        · rfl
        · have := List.all_eq_true.mp hallb
          have hx2 := this ((x.shiftBy st.mt).getDuration, x.shiftBy st.mt)
            (by simp; exact Or.inr ⟨x, hx, rfl, rfl⟩)
          simpa using hx2
      have hok : composePrim ts st (.split bs) =
          .ok ({ st with tracks :=
              ((((c.shiftBy st.mt).getDuration, c.shiftBy st.mt) ::
                cs.map (fun x => ((x.shiftBy st.mt).getDuration, x.shiftBy st.mt))).foldl
                (fun trs p => addComposition trs p.2) st.tracks) },
            (c.shiftBy st.mt).getDuration) := hsplit
      refine ⟨?_, ?_, ?_⟩
      · rw [hok]
        simp only [Except.isOk, Except.toBool, List.map_cons, List.headD_cons,
          List.cons_ne_self, ne_eq, true_iff]
        refine ⟨by simp, ?_⟩
        intro x hx
        simpa using hall x hx
      · intro d₀ hd₀ hall2
        simp only [List.map_cons, List.head?_cons, Option.some.injEq] at hd₀
        subst hd₀
        constructor
        · rw [composeWalk_cons, hok]
          simp only [Bind.bind, Except.bind]
          congr 1
          simp [List.foldl_map]
        · exact tbQ_mtAdd ts st.mt _
      · intro hbad
        rcases hbad with hnil | ⟨x, hx, hne⟩
        · exact absurd hnil (by simp)
        · exfalso
          apply hne
          rw [hall x hx]
          simp
    · rw [if_neg hallb] at hsplit
      have herr : composePrim ts st (.split bs) =
          .error (.nonUniformSplitPanic
            ((((c.shiftBy st.mt).getDuration, c.shiftBy st.mt) ::
              cs.map (fun x => ((x.shiftBy st.mt).getDuration, x.shiftBy st.mt))).map
              Prod.fst)) := hsplit
      have hexbad : ∃ x ∈ c :: cs, (x.shiftBy st.mt).getDuration ≠
          (c.shiftBy st.mt).getDuration := by
        by_contra hno
        push_neg at hno
        apply hallb
        rw [List.all_eq_true]
        rintro ⟨d, s⟩ hp
        rcases List.mem_cons.mp hp with heq | hp2
        · simp [Prod.mk.injEq] at heq
          simp [heq.1]
        · rcases List.mem_map.mp hp2 with ⟨x, hx, hxe⟩
          have := hno x (List.mem_cons_of_mem _ hx)
          simp only [Prod.mk.injEq] at hxe
          simp [← hxe.1, this]
      refine ⟨?_, ?_, ?_⟩
      · rw [herr]
        simp only [Except.isOk, Except.toBool, Bool.false_eq_true, false_iff]
        rintro ⟨-, hforall⟩
        rcases hexbad with ⟨x, hx, hne⟩
        apply hne
        rw [hforall x hx]
        simp
      · intro d₀ hd₀ hall2
        exfalso
        simp only [List.map_cons, List.head?_cons, Option.some.injEq] at hd₀
        subst hd₀
        rcases hexbad with ⟨x, hx, hne⟩
        exact hne (hall2 x hx)
      · intro _
        rw [composeWalk_cons, herr]
        simp only [Bind.bind, Except.bind, List.map_cons, List.map_map]
        rfl

/-- C1 (counterexample to the claim as stated): for the empty split the
branches' total durations are vacuously all equal, so the claimed
equivalence predicts success; the code instead panics (the `None => None`
arm of `uniform_duration` feeds the `panic!`), and the panic carries the
empty duration list — no `CompositionError::NonUniformSplit` is returned. -/
theorem split_empty_counterexample :
    composeMS ts44 [MusicPrimitive.split []] =
      .error (.nonUniformSplitPanic []) ∧
    (∀ d ∈ ([] : List MusicTime), ∀ d₂ ∈ ([] : List MusicTime), d = d₂) := by
  constructor
  · rw [composeMS_eq, composeWalk_cons, composePrim_split_eq, composeList_nil]
    simp [Bind.bind, Except.bind]
  · intro d hd
    simp at hd

/-- C1 witness: the amended theorem applied to a concrete two-branch split
(two empty branches, both of duration zero), whose composition succeeds. -/
theorem split_uniformity_amended_witness :
    (composePrim ts44 initState (MusicPrimitive.split [[], []])).isOk = true := by
  have hbr : composeList ts44 [[], []] =
      .ok [{ tracks := [], timeSignature := ts44 },
           { tracks := [], timeSignature := ts44 }] := by
    simp only [composeList_cons, composeList_nil, composeMS_eq, composeWalk_nil,
      Bind.bind, Except.bind, initState, List.map_nil]
  exact (split_uniformity_amended ts44 initState [[], []]
    [{ tracks := [], timeSignature := ts44 },
     { tracks := [], timeSignature := ts44 }] [] hbr).1.mpr
    ⟨by simp, by intro c hc; rcases List.mem_cons.mp hc with rfl | hc <;> simp_all⟩


theorem tbQ_getDuration (ts : TimeSignature) (c : Composition) (hn : 0 < ts.num)
    (hts : c.timeSignature = ts) :
    IsNorm ts c.getDuration ∧
    tbQ ts c.getDuration =
      ((eventsOfComp c).map (fun e => tbQ ts (e.endMT ts))).foldl max 0 := by
  rw [Composition.getDuration, hts, eventsOfComp]
  have hz : IsNorm ts MusicTime.zero := isNorm_zero ts hn
  have hzq : tbQ ts MusicTime.zero = 0 := by simp [tbQ, MusicTime.zero]
  rw [← hzq]
  generalize MusicTime.zero = acc at hz ⊢
  induction c.tracks generalizing acc with
  | nil => exact ⟨hz, rfl⟩
  | cons tr trs ih =>
    rw [List.foldl_cons, List.map_cons, List.flatten_cons, List.map_append,
      List.foldl_append]
    have h1 := mtMax_fold_events ts hn tr.events acc hz
    have h2 := ih _ h1.1
    refine ⟨h2.1, ?_⟩
    rw [h2.2, h1.2]

theorem mem_eventsOfTM_addTrack (m : TrackMap) (t : Track) (x : Event) :
    x ∈ eventsOfTM (addTrack m t) ↔ x ∈ eventsOfTM m ∨ x ∈ t.events := by
  induction m with
  | nil => simp [addTrack, eventsOfTM]
  | cons p m ih =>
    rw [addTrack]
    by_cases h : p.1 = t.instrument
    · rw [if_pos h]
      simp only [eventsOfTM, List.map_cons, List.flatten_cons, List.mem_append,
        Track.add]
      tauto
    · rw [if_neg h]
      simp only [eventsOfTM, List.map_cons, List.flatten_cons, List.mem_append] at ih ⊢
      rw [ih]
      tauto

theorem mem_eventsOfTM_addComposition (m : TrackMap) (c : Composition) (x : Event) :
    x ∈ eventsOfTM (addComposition m c) ↔ x ∈ eventsOfTM m ∨ x ∈ eventsOfComp c := by
  rw [addComposition, eventsOfComp]
  induction c.tracks generalizing m with
  | nil => simp
  | cons tr trs ih =>
    rw [List.foldl_cons, ih, mem_eventsOfTM_addTrack]
    simp [List.mem_append, or_assoc]

theorem mem_eventsOfComp_shiftBy (c : Composition) (off : MusicTime) (x : Event) :
    x ∈ eventsOfComp (c.shiftBy off) ↔
      ∃ e ∈ eventsOfComp c,
        x = { e with start := mtAdd c.timeSignature e.start off } := by
  simp only [eventsOfComp, Composition.shiftBy, List.map_map, List.mem_flatten,
    List.mem_map, Function.comp]
  constructor
  · rintro ⟨l, ⟨tr, htr, rfl⟩, hx⟩
    rcases List.mem_map.mp hx with ⟨e, he, rfl⟩
    exact ⟨e, ⟨tr.events, ⟨tr, htr, rfl⟩, he⟩, rfl⟩
  · rintro ⟨e, ⟨l, ⟨tr, htr, rfl⟩, he⟩, rfl⟩
    exact ⟨tr.events.map (fun ev => { ev with start := mtAdd c.timeSignature ev.start off }),
      ⟨tr, htr, rfl⟩, List.mem_map_of_mem _ he⟩

theorem rep_total_fold (ts : TimeSignature) (d : MusicTime) (n : ℕ) :
    (List.range n).foldl (fun td _ => mtAdd ts td d) MusicTime.zero =
      mtNSmul ts d n := by
  induction n with
  | zero => rfl
  | succ n ih =>
    rw [List.range_succ, List.foldl_append, ih, List.foldl_cons, List.foldl_nil,
      mtNSmul]

theorem rep_pair_fold (ts : TimeSignature) (sub : Composition) (tr0 : TrackMap)
    (n : ℕ) :
    (List.range n).foldl
      (fun (acc : TrackMap × MusicTime) _ =>
        (addComposition acc.1 (sub.shiftBy acc.2), mtAdd ts acc.2 sub.getDuration))
      (tr0, MusicTime.zero) =
    ((List.range n).foldl
      (fun trs k => addComposition trs (sub.shiftBy (mtNSmul ts sub.getDuration k)))
      tr0,
     mtNSmul ts sub.getDuration n) := by
  induction n with
  | zero => rfl
  | succ n ih =>
    rw [List.range_succ, List.foldl_append, List.foldl_append, ih,
      List.foldl_cons, List.foldl_nil, List.foldl_cons, List.foldl_nil, mtNSmul]

theorem mem_eventsOfTM_rep_fold (ts : TimeSignature) (sub : Composition)
    (tr0 : TrackMap) (n : ℕ) (x : Event) :
    x ∈ eventsOfTM ((List.range n).foldl
      (fun trs k => addComposition trs (sub.shiftBy (mtNSmul ts sub.getDuration k)))
      tr0) ↔
    x ∈ eventsOfTM tr0 ∨
      ∃ k < n, x ∈ eventsOfComp (sub.shiftBy (mtNSmul ts sub.getDuration k)) := by
  induction n with
  | zero => simp
  | succ n ih =>
    rw [List.range_succ, List.foldl_append, List.foldl_cons, List.foldl_nil,
      mem_eventsOfTM_addComposition, ih]
    constructor
    · rintro ((h | ⟨k, hk, hx⟩) | h)
      · exact Or.inl h
      · exact Or.inr ⟨k, Nat.lt_succ_of_lt hk, hx⟩
      · exact Or.inr ⟨n, Nat.lt_succ_self n, h⟩
    · rintro (h | ⟨k, hk, hx⟩)
      · exact Or.inl (Or.inl h)
      · rcases Nat.lt_succ_iff_lt_or_eq.mp hk with hk2 | rfl
        · exact Or.inl (Or.inr ⟨k, hk2, hx⟩)
        · exact Or.inr hx

theorem endQ_shift (ts : TimeSignature) (e : Event) (off : MusicTime) :
    tbQ ts (Event.endMT ts { e with start := mtAdd ts e.start off }) =
      tbQ ts (e.endMT ts) + tbQ ts off := by
  simp only [Event.endMT, tbQ_mtAdd]
  ring

theorem eventsOfComp_mk_map_snd (m : TrackMap) (ts : TimeSignature) :
    eventsOfComp { tracks := m.map Prod.snd, timeSignature := ts } =
      eventsOfTM m := by
  simp only [eventsOfComp, eventsOfTM, List.map_map]
  rfl

/-- C2: composing `Repeat { num := n, content := c }` composes `c` once (to
`sub`, of duration `d = sub.getDuration`), appends `n` shifted copies of
that sub-composition at the offsets `0, d, 2d, …, (n−1)·d` (each copy's
tracks merged into the running map by instrument), and contributes exactly
`n·d` as its duration, by which the walk advances the cursor; semantically
every offset is `k·d` beats and the composed repeat's total duration is
`n · d` — the Repeat duration law. -/
theorem repeat_duration_law (ts : TimeSignature) (st : CState) (n : ℕ)
    (c : List MusicPrimitive) (sub : Composition)
    (hn : 1 ≤ n) (hnum : 0 < ts.num)
    (hsub : composeMS ts c = .ok sub) :
    composePrim ts st (.rep n c) =
      .ok ({ st with tracks := ((List.range n).foldl
          (fun trs k => addComposition trs (sub.shiftBy (mtNSmul ts sub.getDuration k)))
          st.tracks) },
        mtNSmul ts sub.getDuration n)
    ∧ (∀ k : ℕ, tbQ ts (mtNSmul ts sub.getDuration k) =
        (k : ℚ) * tbQ ts sub.getDuration)
    ∧ (∀ comp, composeMS ts [.rep n c] = .ok comp →
        tbQ ts comp.getDuration = (n : ℚ) * tbQ ts sub.getDuration) := by
  have hts : sub.timeSignature = ts := by
    rw [composeMS_eq] at hsub
    cases hw : composeWalk ts initState c with
    | error e => rw [hw] at hsub; simp [Bind.bind, Except.bind] at hsub
    | ok st' =>
      rw [hw] at hsub
      simp only [Bind.bind, Except.bind, Except.ok.injEq] at hsub
      rw [← hsub]
  have hprim : ∀ st' : CState, composePrim ts st' (.rep n c) =
      .ok ({ st' with tracks := ((List.range n).foldl
          (fun trs k => addComposition trs (sub.shiftBy (mtNSmul ts sub.getDuration k)))
          st'.tracks) },
        mtNSmul ts sub.getDuration n) := by
    intro st'
    rw [composePrim_rep_eq, hsub]
    simp only [Bind.bind, Except.bind]
    rw [rep_pair_fold, rep_total_fold]
  refine ⟨hprim st, tbQ_mtNSmul ts sub.getDuration, ?_⟩
  intro comp hcomp
  rw [composeMS_eq, composeWalk_cons, hprim initState] at hcomp
  simp only [Bind.bind, Except.bind] at hcomp
  rw [composeWalk_nil] at hcomp
  simp only [Except.ok.injEq] at hcomp
  subst hcomp
  have hd0 : 0 ≤ tbQ ts sub.getDuration := by
    rw [(tbQ_getDuration ts sub hnum hts).2]
    exact le_foldl_max_seed _ 0
  have hcompdur := tbQ_getDuration ts
    { tracks := ((List.range n).foldl
        (fun trs k => addComposition trs (sub.shiftBy (mtNSmul ts sub.getDuration k)))
        initState.tracks).map Prod.snd, timeSignature := ts } hnum rfl
  rw [hcompdur.2, eventsOfComp_mk_map_snd]
  have hmemF : ∀ x : Event,
      x ∈ eventsOfTM ((List.range n).foldl
        (fun trs k => addComposition trs (sub.shiftBy (mtNSmul ts sub.getDuration k)))
        initState.tracks) ↔
      ∃ k < n, ∃ e ∈ eventsOfComp sub,
        x = { e with start := mtAdd ts e.start (mtNSmul ts sub.getDuration k) } := by
    intro x
    rw [mem_eventsOfTM_rep_fold]
    constructor
    · rintro (h | ⟨k, hk, hx⟩)
      · simp [initState, eventsOfTM] at h
      · rcases (mem_eventsOfComp_shiftBy sub _ x).mp hx with ⟨e, he, hxe⟩
        rw [hts] at hxe
        exact ⟨k, hk, e, he, hxe⟩
    · rintro ⟨k, hk, e, he, hxe⟩
      refine Or.inr ⟨k, hk, (mem_eventsOfComp_shiftBy sub _ x).mpr ⟨e, he, ?_⟩⟩
      rw [hts]
      exact hxe
  have hupper : ((eventsOfTM ((List.range n).foldl
      (fun trs k => addComposition trs (sub.shiftBy (mtNSmul ts sub.getDuration k)))
      initState.tracks)).map (fun e => tbQ ts (e.endMT ts))).foldl max 0 ≤
      (n : ℚ) * tbQ ts sub.getDuration := by
    rw [foldl_max_le_iff]
    refine ⟨by positivity, ?_⟩
    intro y hy
    rcases List.mem_map.mp hy with ⟨x, hx, rfl⟩
    rcases (hmemF x).mp hx with ⟨k, hk, e, he, rfl⟩
    rw [endQ_shift, tbQ_mtNSmul]
    have he2 : tbQ ts (e.endMT ts) ≤ tbQ ts sub.getDuration := by
      rw [(tbQ_getDuration ts sub hnum hts).2]
      exact le_foldl_max_mem _ 0 _ (List.mem_map_of_mem _ he)
    have hk2 : (k : ℚ) ≤ (n : ℚ) - 1 := by
      have : (k : ℚ) + 1 ≤ (n : ℚ) := by exact_mod_cast hk
      linarith
    nlinarith
  rcases foldl_max_eq_seed_or_mem
      ((eventsOfComp sub).map (fun e => tbQ ts (e.endMT ts))) 0 with hz | hmem
  · have hdz : tbQ ts sub.getDuration = 0 := by
      rw [(tbQ_getDuration ts sub hnum hts).2, hz]
    have hge := le_foldl_max_seed ((eventsOfTM ((List.range n).foldl
      (fun trs k => addComposition trs (sub.shiftBy (mtNSmul ts sub.getDuration k)))
      initState.tracks)).map (fun e => tbQ ts (e.endMT ts))) 0
    rw [hdz, mul_zero] at hupper
    rw [hdz, mul_zero]
    linarith
  · rcases List.mem_map.mp hmem with ⟨e, he, hey⟩
    have heq : tbQ ts (e.endMT ts) = tbQ ts sub.getDuration := by
      rw [(tbQ_getDuration ts sub hnum hts).2, hey]
    have hxmem : ({ e with start := (mtAdd ts e.start
        (mtNSmul ts sub.getDuration (n - 1))) } : Event) ∈
        eventsOfTM ((List.range n).foldl
          (fun trs k => addComposition trs (sub.shiftBy (mtNSmul ts sub.getDuration k)))
          initState.tracks) :=
      (hmemF _).mpr ⟨n - 1, by omega, e, he, rfl⟩
    have hlow := le_foldl_max_mem _ 0 _ (List.mem_map_of_mem
      (fun e => tbQ ts (e.endMT ts)) hxmem)
    simp only [endQ_shift, tbQ_mtNSmul, heq] at hlow
    have hn1 : ((n - 1 : ℕ) : ℚ) = (n : ℚ) - 1 := by
      have : 1 ≤ n := hn
      push_cast [Nat.cast_sub this]
      ring
    rw [hn1] at hlow
    have : (n : ℚ) - 1 ≥ 0 := by
      have : (1 : ℚ) ≤ (n : ℚ) := by exact_mod_cast hn
      linarith
    linarith [hupper]

/-- C2 witness: the theorem applied to `Repeat 2` of the empty content,
whose composition is the empty composition of duration zero. -/
theorem repeat_duration_law_witness :
    composePrim ts44 initState (MusicPrimitive.rep 2 []) =
      .ok ({ initState with tracks := ((List.range 2).foldl
          (fun trs k => addComposition trs
            ((Composition.mk [] ts44).shiftBy
              (mtNSmul ts44 (Composition.mk [] ts44).getDuration k)))
          initState.tracks) },
        mtNSmul ts44 (Composition.mk [] ts44).getDuration 2) := by
  have hsub : composeMS ts44 [] = .ok { tracks := [], timeSignature := ts44 } := by
    rw [composeMS_eq, composeWalk_nil]
    simp [Bind.bind, Except.bind, initState]
  exact (repeat_duration_law ts44 initState 2 [] _ (by norm_num) (by decide) hsub).1

end Backend

namespace MT

/-! Scanner claims. -/

theorem findMatchingAux_first_close (o c : Char) (hoc : o ≠ c)
    (inner rest : List Char) (ho : o ∉ inner) (hc : c ∉ inner) :
    ∀ i : ℕ, findMatchingAux o c (inner ++ c :: rest) i 1 = some (i + inner.length) := by
  induction inner with
  | nil =>
    intro i
    rw [List.nil_append, findMatchingAux]
    rw [if_neg (fun h => hoc h.symm), if_pos rfl]
    simp
  | cons d ds ih =>
    intro i
    have hdo : ¬ d = o := fun h => ho (h ▸ List.mem_cons_self d ds)
    have hdc : ¬ d = c := fun h => hc (h ▸ List.mem_cons_self d ds)
    rw [List.cons_append, findMatchingAux, if_neg hdo, if_neg hdc]
    rw [ih (fun h => ho (List.mem_cons_of_mem _ h))
        (fun h => hc (List.mem_cons_of_mem _ h)) (i + 1)]
    simp
    omega

theorem findMatching_first_close (o c : Char) (hoc : o ≠ c)
    (inner rest : List Char) (ho : o ∉ inner) (hc : c ∉ inner) :
    findMatching (inner ++ c :: rest) o c = some inner.length := by
  rw [findMatching, findMatchingAux_first_close o c hoc inner rest ho hc 0]
  simp

/-- C8 (amended): a duration annotation with a malformed inner text does
not error — it silently substitutes a default and succeeds: a non-fraction
inner that is not a well-formed `u32` yields zero beats (`unwrap_or(0)`),
and a fraction-shaped inner whose first or second `/`-separated field fails
to parse yields one beat.  (Only a missing closing `>` yields
`Generic`.) -/
theorem duration_malformed_amended (inner rest : List Char)
    (hlt : '<' ∉ inner) (hgt : '>' ∉ inner) :
    (('/' ∉ inner ∧ parseUInt u32Bound inner = none) →
      durationScan ('<' :: (inner ++ '>' :: rest)) = .ok (MusicTime.beats 0, rest))
    ∧ (('/' ∈ inner ∧
        (parseUInt u32Bound ((inner.splitOn '/').headD []) = none ∨
         ((inner.splitOn '/').tail.head?.bind (parseUInt u32Bound)) = none)) →
      durationScan ('<' :: (inner ++ '>' :: rest)) = .ok (MusicTime.beats 1, rest)) := by
  have hfm : findMatching (inner ++ '>' :: rest) '<' '>' = some inner.length :=
    findMatching_first_close '<' '>' (by decide) inner rest hlt hgt
  have hdur : (inner ++ '>' :: rest).take inner.length = inner := List.take_left _ _
  have hrem : ('<' :: (inner ++ '>' :: rest)).drop (inner.length + 2) = rest := by
    rw [List.drop_succ_cons]
    have h2 := @List.drop_append _ inner ('>' :: rest) 1
    simp only [List.drop_succ_cons, List.drop_nil, List.drop] at h2 ⊢
    exact h2
  constructor
  · rintro ⟨hslash, hparse⟩
    rw [durationScan]
    simp only [hfm, hdur, hrem]
    rw [if_neg (by simpa using hslash)]
    rw [hparse]
    rfl
  · rintro ⟨hslash, hparse⟩
    rw [durationScan]
    simp only [hfm, hdur, hrem]
    rw [if_pos (by simpa using hslash)]
    rcases hparse with h1 | h2
    · rw [h1]
    · rw [h2]
      cases parseUInt u32Bound ((inner.splitOn '/').headD []) <;> rfl

/-- C8 (counterexample to the claim as stated): the malformed duration
annotations `<x>` (not an unsigned integer) and `<a/b>` (not a fraction of
unsigned integers) both make the duration scanner succeed with a default
duration (0 beats and 1 beat respectively) instead of returning a parse
error of the `Generic` kind. -/
theorem duration_malformed_counterexample :
    durationScan "<x>".toList = .ok (MusicTime.beats 0, []) ∧
    durationScan "<a/b>".toList = .ok (MusicTime.beats 1, []) := by
  constructor <;> rfl

/-- C8 witness: the amended theorem applied at `<x>` and `<a/b>`. -/
theorem duration_malformed_amended_witness :
    durationScan ('<' :: ("x".toList ++ '>' :: [])) = .ok (MusicTime.beats 0, []) ∧
    durationScan ('<' :: ("a/b".toList ++ '>' :: [])) = .ok (MusicTime.beats 1, []) :=
  ⟨(duration_malformed_amended "x".toList [] (by decide) (by decide)).1 (by decide),
   (duration_malformed_amended "a/b".toList [] (by decide) (by decide)).2 (by decide)⟩

/-- C4 (code evaluated at the failing input): the split scanner cuts the
inner region of `\x7b\x7b:4c<1>|:4d<1>\x7d|:4e<2>\x7d` at every `|`,
including the one inside the nested sub-split, so its first naive part is
the unbalanced `\x7b:4c<1` and the whole parse fails with `Generic`;
under the claimed top-level-only splitting the input would parse into two
branches. -/
theorem split_nested_pipe_failing :
    musicStringScan "\x7b\x7b:4c<1>|:4d<1>\x7d|:4e<2>\x7d".toList =
      .error (.generic "Expected '\x7d'") := by
  rfl

/-- Fuel-generic version of the C10 property: any successful run of the
fuel-indexed music-string scanner leaves no remaining input. -/
theorem music_string_scan_fuel_consumes (fuel : ℕ) :
    ∀ (cs : List Char) (v : List MusicPrimitive) (rest : List Char),
      musicStringScanF fuel cs = .ok (v, rest) → rest = [] := by
  induction fuel with
  | zero =>
    intro cs v rest h
    rw [musicStringScanF] at h
    exact absurd h (by simp)
  | succ fuel ih =>
    intro cs v rest h
    rw [musicStringScanF] at h
    by_cases hemp : cs.isEmpty
    · rw [if_pos hemp] at h
      simp only [Except.ok.injEq, Prod.mk.injEq] at h
      rw [← h.2]
      exact List.isEmpty_iff.mp hemp
    · rw [if_neg hemp] at h
      by_cases hemp2 : (cs.dropWhile Char.isWhitespace).isEmpty
      · rw [if_pos hemp2] at h
        simp only [Except.ok.injEq, Prod.mk.injEq] at h
        rw [← h.2]
        exact List.isEmpty_iff.mp hemp2
      · rw [if_neg hemp2] at h
        cases hp : musicPrimitiveScanF fuel (cs.dropWhile Char.isWhitespace) with
        | error e => rw [hp] at h; exact absurd h (by simp [Bind.bind, Except.bind])
        | ok pr =>
          rw [hp] at h
          simp only [Bind.bind, Except.bind] at h
          cases hs : musicStringScanF fuel pr.2 with
          | error e => rw [hs] at h; exact absurd h (by simp)
          | ok pr2 =>
            rw [hs] at h
            simp only [Except.ok.injEq, Prod.mk.injEq] at h
            rw [← h.2]
            exact ih pr.2 pr2.1 pr2.2 (by rw [hs])

/-- C10: whenever `MusicStringScanner` succeeds, the remaining input it
returns is empty, and wrapping it in `consume` yields the identical result
(never the did-not-consume-entire-input error). -/
theorem music_string_consumes_all (cs : List Char) (v : List MusicPrimitive)
    (rest : List Char) (h : musicStringScan cs = .ok (v, rest)) :
    rest = [] ∧ consumeScan musicStringScan cs = .ok (v, rest) := by
  have hrest : rest = [] :=
    music_string_scan_fuel_consumes (2 * cs.length + 2) cs v rest h
  refine ⟨hrest, ?_⟩
  rw [consumeScan]
  rw [show (musicStringScan cs) = .ok (v, rest) from h]
  subst hrest
  rfl

/-- C10 witness: the theorem applied to the concrete input `:_`. -/
theorem music_string_consumes_all_witness :
    ([] : List Char) = [] ∧
    consumeScan musicStringScan ":_".toList =
      .ok ([MusicPrimitive.simple (Symbol.t
        (Terminal.music (MusicTime.beats 1) TerminalNote.rest))], []) :=
  music_string_consumes_all ":_".toList _ [] (by rfl)

/-- C3: the note scanner maps every accepted structured note input —
optional leading octave digit (default 4), a letter `a..g` in either case
with offsets `a:0, b:2, c:3, d:5, e:7, f:8, g:10`, and an optional trailing
`#` (add 1 modulo 12) or `b` (subtract 1 modulo 12) — to the claimed pitch,
and the single character underscore to a rest. -/
theorem note_scanner_spec :
    (∀ (od : Option (Fin 10)) (i : Fin 7) (upper : Bool) (acc : Option Bool),
      noteScan (noteInputChars od i upper acc) =
        .ok (.note ⟨claimOctave od, claimSemitone i acc⟩, []))
    ∧ noteScan ['_'] = .ok (.rest, []) := by
  constructor
  · decide
  · rfl

/-! Scheduler claims. -/

theorem mem_insertLe {α : Type} (le : α → α → Bool) (a x : α) (l : List α) :
    x ∈ insertLe le a l ↔ x = a ∨ x ∈ l := by
  induction l with
  | nil => simp [insertLe]
  | cons y ys ih =>
    rw [insertLe]
    by_cases h : le a y = true
    · rw [if_pos h]
      simp
    · rw [if_neg h]
      simp only [List.mem_cons, ih]
      tauto

theorem mem_sortByLe {α : Type} (le : α → α → Bool) (x : α) (l : List α) :
    x ∈ sortByLe le l ↔ x ∈ l := by
  induction l with
  | nil => simp [sortByLe]
  | cons y ys ih =>
    rw [sortByLe, mem_insertLe]
    simp [ih]

theorem mem_of_mapM_option {α β : Type} (f : α → Option β) (l : List α)
    (r : List β) (h : l.mapM f = some r) :
    ∀ y ∈ r, ∃ a ∈ l, f a = some y := by
  induction l generalizing r with
  | nil =>
    simp only [List.mapM_nil, pure, Option.some.injEq] at h
    subst h
    simp
  | cons a as ih =>
    rw [List.mapM_cons] at h
    cases hfa : f a with
    | none => rw [hfa] at h; simp [Bind.bind] at h
    | some b =>
      rw [hfa] at h
      cases hrest : as.mapM f with
      | none => rw [hrest] at h; simp [Bind.bind] at h
      | some bs =>
        rw [hrest] at h
        simp only [Bind.bind, Option.bind, pure, Option.some.injEq] at h
        subst h
        intro y hy
        rcases List.mem_cons.mp hy with rfl | hy2
        · exact ⟨a, List.mem_cons_self a as, hfa⟩
        · rcases ih bs hrest y hy2 with ⟨a2, ha2, hfa2⟩
          exact ⟨a2, List.mem_cons_of_mem _ ha2, hfa2⟩

theorem qLoopProject_some_ge (t inc : ℚ) (fuel : ℕ) (x y : ℚ)
    (h : qLoopProject t inc fuel x = some y) : t ≤ y := by
  induction fuel generalizing x with
  | zero =>
    rw [qLoopProject] at h
    by_cases hx : x < t
    · rw [if_pos hx] at h; exact absurd h (by simp)
    · rw [if_neg hx] at h
      simp only [Option.some.injEq] at h
      subst h
      exact le_of_not_lt hx
  | succ fuel ih =>
    rw [qLoopProject] at h
    by_cases hx : x < t
    · rw [if_pos hx] at h
      exact ih _ h
    · rw [if_neg hx] at h
      simp only [Option.some.injEq] at h
      subst h
      exact le_of_not_lt hx

theorem mem_elim_fst_bind {α β γ : Type} (o : Option α)
    (f : α → Option (List β × γ)) (x : β)
    (h : x ∈ Option.elim (o >>= f) [] (fun r => r.1)) :
    ∃ v, o = some v ∧ x ∈ Option.elim (f v) [] (fun r => r.1) := by
  cases o with
  | none => simp [Option.elim] at h
  | some v => exact ⟨v, rfl, h⟩

theorem loop_projection_tail (fuel : ℕ) (s : Scheduler) (t : ℚ)
    (hl : s.looped = true) (le : Bool × MusicTime) (x : ScheduledSound)
    (hx3 : x ∈ Option.elim
      (s.tracks.mapM (perTrackStep s fuel t le.1 le.2) >>=
        (fun perTrack => some (sortByLe ssLeB ((perTrack.map Prod.snd).flatten),
          { s with tracks := perTrack.map Prod.fst })))
      [] (fun r => r.1)) :
    t ≤ x.time := by
  rcases mem_elim_fst_bind _ _ _ hx3 with ⟨perTrack, h3, hx4⟩
  simp only [Option.elim] at hx4
  rw [mem_sortByLe] at hx4
  rcases List.mem_flatten.mp hx4 with ⟨l, hl2, hxl⟩
  rcases List.mem_map.mp hl2 with ⟨pt, hpt, rfl⟩
  rcases mem_of_mapM_option _ _ _ h3 pt hpt with ⟨tc, htc, hg⟩
  rw [perTrackStep] at hg
  cases hinner : (perTrackEvents le.1 s.loopTime le.2 tc.1 tc.2).mapM
      (fun e => projectSound s.looped t
        (s.loopTime.toSeconds s.timeSignature s.bpm) fuel
        (toScheduled s.timeSignature s.bpm tc.1.instrument e)) with
  | none =>
    rw [hinner] at hg
    simp [Bind.bind] at hg
  | some sounds =>
    rw [hinner] at hg
    simp only [Bind.bind, Option.bind, Option.some.injEq] at hg
    have hsnd : pt.2 = sounds := by rw [← hg]
    rcases mem_of_mapM_option _ _ _ hinner x (hsnd ▸ hxl) with ⟨e, he, hfe⟩
    rw [projectSound, if_pos hl] at hfe
    rcases Option.map_eq_some'.mp hfe with ⟨t2, hproj, hxe⟩
    have hge := qLoopProject_some_ge t _ fuel _ t2 hproj
    rw [← hxe]
    exact hge

/-- C5: when the scheduler is looped with a strictly positive loop time,
every sound a successful `get_next_events_and_update` call returns has its
start time (in seconds) at least the current elapsed seconds — sounds
falling before it are advanced by whole loops until they no longer do. -/
theorem loop_projection (fuel : ℕ) (s : Scheduler) (t : ℚ)
    (hl : s.looped = true) (_hpos : 0 < tbQ s.timeSignature s.loopTime) :
    ∀ x ∈ Option.elim (s.getNextEvents fuel t) [] (fun r => r.1),
      t ≤ x.time := by
  intro x hx
  rw [Scheduler.getNextEvents] at hx
  rcases mem_elim_fst_bind _ _ _ hx with ⟨cur, h1, hx2⟩
  dsimp only at hx2
  split at hx2
  · rcases mem_elim_fst_bind _ _ _ hx2 with ⟨le, h2, hx3⟩
    exact loop_projection_tail fuel s t hl le x hx3
  · rcases mem_elim_fst_bind _ _ _ hx2 with ⟨le, h2, hx3⟩
    exact loop_projection_tail fuel s t hl le x hx3

/-- C5 witness: the theorem applied to the concrete looped scheduler at an
elapsed time just past its first loop. -/
theorem loop_projection_witness :
    (Option.elim (loopedScheduler.getNextEvents 30 (21 / 10)) []
      (fun r => r.1)).all (fun x => decide ((21 / 10 : ℚ) ≤ x.time)) = true :=
  List.all_eq_true.mpr (fun x hx => decide_eq_true
    (loop_projection 30 loopedScheduler (21 / 10) rfl
      (by norm_num [tbQ, loopedScheduler, ts44, MusicTime.measures]) x hx))

/-- C6 (code evaluated at the failing input): a looped scheduler whose
single non-empty track's cursor lies past the track's end reports
`ended() = true` — the implementation never consults `looped`, so a looped
scheduler can end, contradicting the claim's "a looped scheduler never
ends".  (The claim's other half matches the code: only tracks that have an
end time are consulted, and each needs cursor strictly past that end.) -/
theorem ended_looped_failing :
    pastEndScheduler.looped = true ∧ pastEndScheduler.ended = true ∧
    pastEndScheduler.tracks ≠ [] := by
  refine ⟨rfl, ?_, by simp [pastEndScheduler, loopedScheduler]⟩
  simp only [Scheduler.ended, pastEndScheduler, loopedScheduler, sampleTrack,
    trackGetEnd, ts44, Event.endMT, mtAdd, mtNormalize, beatAsMusicTime,
    mtLtB, List.filterMap, List.getLast?, List.all]
  norm_num

/-- C7 (code evaluated at the failing input): at volume 100 the player's
velocity computation `((volume as f32 / 100.) * 128.) as u8` yields 128 —
out of MIDI's 7-bit velocity range — where the claimed formula
`round(volume/100 · 127)` yields 127; both the NoteOn and NoteOff messages
carry the same computed byte. -/
theorem midi_velocity_failing :
    midiVelocity 100 = 128 ∧ (round ((100 : ℚ) / 100 * 127) : ℤ) = 127 ∧
    midiPlayVelocities 100 = (128, 128) := by
  refine ⟨by decide, by norm_num, by decide⟩

end MT

end VibeLive

namespace VibeLive
namespace MT

theorem mtLoopReduce_succ (ts : TimeSignature) (b : Bool) (limit : MusicTime)
    (fuel : ℕ) (cur r : MusicTime)
    (h : mtLoopReduce ts b limit fuel cur = some r) :
    mtLoopReduce ts b limit (fuel + 1) cur = some r := by
  induction fuel generalizing cur with
  | zero =>
    rw [mtLoopReduce] at h
    by_cases hc : (b && mtLtB limit cur) = true
    · rw [if_pos hc] at h; exact absurd h (by simp)
    · rw [if_neg hc] at h
      rw [mtLoopReduce, if_neg hc]
      exact h
  | succ fuel ih =>
    rw [mtLoopReduce] at h
    by_cases hc : (b && mtLtB limit cur) = true
    · rw [if_pos hc] at h
      rw [mtLoopReduce, if_pos hc]
      exact ih _ h
    · rw [if_neg hc] at h
      rw [mtLoopReduce, if_neg hc]
      exact h

theorem mtLoopReduce_mono (ts : TimeSignature) (b : Bool) (limit : MusicTime)
    (f f' : ℕ) (hle : f ≤ f') (cur r : MusicTime)
    (h : mtLoopReduce ts b limit f cur = some r) :
    mtLoopReduce ts b limit f' cur = some r := by
  induction f', hle using Nat.le_induction with
  | base => exact h
  | succ f' hf ih => exact mtLoopReduce_succ ts b limit f' cur r ih

theorem qLoopProject_succ (t inc : ℚ) (fuel : ℕ) (x y : ℚ)
    (h : qLoopProject t inc fuel x = some y) :
    qLoopProject t inc (fuel + 1) x = some y := by
  induction fuel generalizing x with
  | zero =>
    rw [qLoopProject] at h
    by_cases hc : x < t
    · rw [if_pos hc] at h; exact absurd h (by simp)
    · rw [if_neg hc] at h
      rw [qLoopProject, if_neg hc]
      exact h
  | succ fuel ih =>
    rw [qLoopProject] at h
    by_cases hc : x < t
    · rw [if_pos hc] at h
      rw [qLoopProject, if_pos hc]
      exact ih _ h
    · rw [if_neg hc] at h
      rw [qLoopProject, if_neg hc]
      exact h

theorem qLoopProject_mono (t inc : ℚ) (f f' : ℕ) (hle : f ≤ f') (x y : ℚ)
    (h : qLoopProject t inc f x = some y) :
    qLoopProject t inc f' x = some y := by
  induction f', hle using Nat.le_induction with
  | base => exact h
  | succ f' hf ih => exact qLoopProject_succ t inc f' x y ih

theorem mtLoopReduce_term_true (ts : TimeSignature) (limit : MusicTime)
    (hn : 0 < ts.num) (hnorm : IsNorm ts limit) (_hpos : 0 < tbQ ts limit) :
    ∀ (k : ℕ) (cur : MusicTime), IsNorm ts cur →
      tbQ ts cur ≤ tbQ ts limit * (k + 1) →
      (mtLoopReduce ts true limit k cur).isSome = true := by
  intro k
  induction k with
  | zero =>
    intro cur hcur hle
    rw [mtLoopReduce]
    have hc : (true && mtLtB limit cur) = false := by
      simp only [Bool.true_and]
      rw [← Bool.not_eq_true]
      intro hlt
      have := (mtLtB_iff_tbQ ts limit cur hn hnorm hcur).mp hlt
      push_cast at hle
      linarith
    rw [if_neg (by simp [hc])]
    simp
  | succ k ih =>
    intro cur hcur hle
    rw [mtLoopReduce]
    by_cases hc : (true && mtLtB limit cur) = true
    · rw [if_pos hc]
      apply ih
      · exact isNorm_mtSub ts cur limit hn
      · rw [tbQ_mtSub]
        push_cast at hle ⊢
        nlinarith
    · rw [if_neg hc]
      simp

theorem mtLoopReduce_term (ts : TimeSignature) (b : Bool) (limit : MusicTime)
    (hn : 0 < ts.num) (hnorm : IsNorm ts limit) (hpos : 0 < tbQ ts limit)
    (cur : MusicTime) (hcur : IsNorm ts cur) :
    ∃ fuel r, mtLoopReduce ts b limit fuel cur = some r := by
  cases b with
  | false =>
    refine ⟨0, cur, ?_⟩
    rw [mtLoopReduce]
    simp
  | true =>
    obtain ⟨n, hnle⟩ := exists_nat_ge (tbQ ts cur / tbQ ts limit)
    have hle : tbQ ts cur ≤ tbQ ts limit * (n + 1) := by
      rw [div_le_iff₀ hpos] at hnle
      nlinarith
    have := mtLoopReduce_term_true ts limit hn hnorm hpos n cur hcur hle
    rcases Option.isSome_iff_exists.mp this with ⟨r, hr⟩
    exact ⟨n, r, hr⟩

theorem qLoopProject_term_aux (t inc : ℚ) :
    ∀ (k : ℕ) (x : ℚ), t ≤ x + k * inc →
      (qLoopProject t inc k x).isSome = true := by
  intro k
  induction k with
  | zero =>
    intro x hle
    rw [qLoopProject]
    rw [if_neg (by push_cast at hle; linarith)]
    simp
  | succ k ih =>
    intro x hle
    rw [qLoopProject]
    by_cases hc : x < t
    · rw [if_pos hc]
      apply ih
      push_cast at hle ⊢
      linarith
    · rw [if_neg hc]
      simp

theorem qLoopProject_term (t inc : ℚ) (hinc : 0 < inc) (x : ℚ) :
    ∃ fuel, (qLoopProject t inc fuel x).isSome = true := by
  obtain ⟨n, hnle⟩ := exists_nat_ge ((t - x) / inc)
  refine ⟨n, qLoopProject_term_aux t inc n x ?_⟩
  rw [div_le_iff₀ hinc] at hnle
  linarith

theorem qLoopProject_term_list (t inc : ℚ) (hinc : 0 < inc) (xs : List ℚ) :
    ∃ fuel, ∀ x ∈ xs, (qLoopProject t inc fuel x).isSome = true := by
  induction xs with
  | nil => exact ⟨0, by simp⟩
  | cons y ys ih =>
    obtain ⟨f1, h1⟩ := qLoopProject_term t inc hinc y
    obtain ⟨f2, h2⟩ := ih
    refine ⟨max f1 f2, ?_⟩
    intro x hx
    rcases List.mem_cons.mp hx with rfl | hx2
    · rcases Option.isSome_iff_exists.mp h1 with ⟨r, hr⟩
      rw [qLoopProject_mono t inc f1 (max f1 f2) (le_max_left _ _) x r hr]
      rfl
    · rcases Option.isSome_iff_exists.mp (h2 x hx2) with ⟨r, hr⟩
      rw [qLoopProject_mono t inc f2 (max f1 f2) (le_max_right _ _) x r hr]
      rfl

theorem mapM_isSome_of_all {α β : Type} (f : α → Option β) (l : List α)
    (h : ∀ a ∈ l, (f a).isSome = true) : (l.mapM f).isSome = true := by
  induction l with
  | nil => rfl
  | cons a as ih =>
    rw [List.mapM_cons]
    rcases Option.isSome_iff_exists.mp (h a (List.mem_cons_self a as)) with ⟨b, hb⟩
    rw [hb]
    rcases Option.isSome_iff_exists.mp
        (ih (fun a2 ha2 => h a2 (List.mem_cons_of_mem _ ha2))) with ⟨bs, hbs⟩
    rw [hbs]
    rfl


theorem perTrack_mapM_isSome (s : Scheduler) (F : ℕ) (t : ℚ) (looping : Bool)
    (endMt : MusicTime)
    (h : ∀ tc ∈ s.tracks,
      ∀ e ∈ perTrackEvents looping s.loopTime endMt tc.1 tc.2,
        (projectSound s.looped t (s.loopTime.toSeconds s.timeSignature s.bpm) F
          (toScheduled s.timeSignature s.bpm tc.1.instrument e)).isSome = true) :
    (s.tracks.mapM (perTrackStep s F t looping endMt)).isSome = true := by
  apply mapM_isSome_of_all
  intro tc htc
  rw [perTrackStep]
  rcases Option.isSome_iff_exists.mp (mapM_isSome_of_all _ _ (h tc htc)) with ⟨sounds, hs⟩
  rw [hs]
  rfl

theorem mtLoopReduce_diverge_zero (ts : TimeSignature) (hn : 0 < ts.num) :
    ∀ (f : ℕ) (cur : MusicTime), IsNorm ts cur →
      mtLtB MusicTime.zero cur = true →
      mtLoopReduce ts true MusicTime.zero f cur = none := by
  intro f
  induction f with
  | zero =>
    intro cur hcur hlt
    rw [mtLoopReduce]
    rw [if_pos (by simp [hlt])]
  | succ f ih =>
    intro cur hcur hlt
    rw [mtLoopReduce]
    rw [if_pos (by simp [hlt])]
    have hsub : mtSub ts cur MusicTime.zero = cur := by
      have : (⟨cur.measure - 0, cur.beat - 0⟩ : MusicTime) = cur := by
        simp
      rw [mtSub]
      simp only [MusicTime.zero]
      rw [show (⟨cur.measure - (0:ℤ), cur.beat - (0:ℚ)⟩ : MusicTime) = cur by simp]
      exact mtNormalize_eq_self ts cur hn hcur
    rw [hsub]
    exact ih cur hcur hlt

theorem mtLoopReduce_stay (ts : TimeSignature) (b : Bool) (limit cur : MusicTime)
    (h : (b && mtLtB limit cur) = false) (f : ℕ) :
    mtLoopReduce ts b limit f cur = some cur := by
  cases f with
  | zero => rw [mtLoopReduce, if_neg (by simp [h])]
  | succ f => rw [mtLoopReduce, if_neg (by simp [h])]

theorem isNorm_fromSeconds (ts : TimeSignature) (bpm sQ : ℚ) (hn : 0 < ts.num) :
    IsNorm ts (MusicTime.fromSeconds ts bpm sQ) := by
  rw [MusicTime.fromSeconds]
  exact isNorm_mtNormalize _ _ hn

theorem tbQ_fromSeconds (ts : TimeSignature) (bpm sQ : ℚ) :
    tbQ ts (MusicTime.fromSeconds ts bpm sQ) = sQ * bpm / 60 := by
  rw [MusicTime.fromSeconds, tbQ_mtNormalize]
  simp [tbQ]

theorem tbQ_zero (ts : TimeSignature) : tbQ ts MusicTime.zero = 0 := by
  simp [tbQ, MusicTime.zero]

/-- **C9** (termination): `Scheduler::get_next_events_and_update` terminates at
some fuel whenever a looped scheduler carries a strictly positive normalized
`loop_time`; and with `looped = true` and `loop_time = 0` the internal
`while` loops diverge (the call is `none` at every fuel) once the elapsed
time is positive, or the elapsed time is zero and the look-ahead window end
is positive. -/
theorem scheduler_termination (s : Scheduler) (t : ℚ)
    (hb : 0 < s.bpm) (hn : 0 < s.timeSignature.num) :
    ((s.looped = true →
        IsNorm s.timeSignature s.loopTime ∧ 0 < tbQ s.timeSignature s.loopTime) →
      ∃ fuel, (s.getNextEvents fuel t).isSome = true)
    ∧ (s.looped = true → s.loopTime = MusicTime.zero →
        (0 < t ∨ (t = 0 ∧ 0 < tbQ s.timeSignature s.lookahead)) →
        ∀ fuel, s.getNextEvents fuel t = none) := by
  constructor
  · intro hloop
    cases hlooped : s.looped with
    | false =>
      refine ⟨0, ?_⟩
      have h1 := mtLoopReduce_stay s.timeSignature s.looped s.loopTime
        (MusicTime.fromSeconds s.timeSignature s.bpm t) (by rw [hlooped]; rfl) 0
      have h3 : (s.tracks.mapM (perTrackStep s 0 t false
          (mtAdd s.timeSignature (MusicTime.fromSeconds s.timeSignature s.bpm t)
            s.lookahead))).isSome = true := by
        apply perTrack_mapM_isSome
        intro tc _ e _
        simp [projectSound, hlooped]
      rcases Option.isSome_iff_exists.mp h3 with ⟨pt, hpt⟩
      rw [Scheduler.getNextEvents, h1]
      simp only [Bind.bind, Option.bind, hlooped, Bool.false_and,
        Bool.false_eq_true, if_false]
      rw [hpt]
      rfl
    | true =>
      obtain ⟨hnormL, hposL⟩ := hloop hlooped
      obtain ⟨f1, cur, h1⟩ := mtLoopReduce_term s.timeSignature s.looped s.loopTime
        hn hnormL hposL (MusicTime.fromSeconds s.timeSignature s.bpm t)
        (isNorm_fromSeconds _ _ _ hn)
      have hls : 0 < MusicTime.toSeconds s.loopTime s.timeSignature s.bpm := by
        rw [MusicTime.toSeconds]
        exact div_pos (mul_pos hposL (by norm_num)) hb
      by_cases hc : (s.looped && mtLtB s.loopTime
          (mtAdd s.timeSignature cur s.lookahead)) = true
      · obtain ⟨f2, e2, h2⟩ := mtLoopReduce_term s.timeSignature true s.loopTime
          hn hnormL hposL (mtAdd s.timeSignature cur s.lookahead)
          (isNorm_mtAdd _ _ _ hn)
        obtain ⟨f3, h3⟩ := qLoopProject_term_list t
          (MusicTime.toSeconds s.loopTime s.timeSignature s.bpm) hls
          ((s.tracks.map (fun tc =>
            (perTrackEvents true s.loopTime e2 tc.1 tc.2).map
              (fun e => (toScheduled s.timeSignature s.bpm tc.1.instrument e).time))).flatten)
        refine ⟨max f1 (max f2 f3), ?_⟩
        have h1' := mtLoopReduce_mono _ _ _ f1 (max f1 (max f2 f3))
          (le_max_left _ _) _ _ h1
        have h2' := mtLoopReduce_mono _ _ _ f2 (max f1 (max f2 f3))
          (le_trans (le_max_left f2 f3) (le_max_right f1 _)) _ _ h2
        have hF3 : f3 ≤ max f1 (max f2 f3) :=
          le_trans (le_max_right f2 f3) (le_max_right f1 _)
        have hmm : (s.tracks.mapM (perTrackStep s (max f1 (max f2 f3)) t true
            e2)).isSome = true := by
          apply perTrack_mapM_isSome
          intro tc htc e he
          have hx : (toScheduled s.timeSignature s.bpm tc.1.instrument e).time ∈
              (s.tracks.map (fun tc =>
                (perTrackEvents true s.loopTime e2 tc.1 tc.2).map
                  (fun e => (toScheduled s.timeSignature s.bpm tc.1.instrument
                    e).time))).flatten := by
            apply List.mem_flatten.mpr
            refine ⟨(perTrackEvents true s.loopTime e2 tc.1 tc.2).map
              (fun e => (toScheduled s.timeSignature s.bpm tc.1.instrument
                e).time), ?_, ?_⟩
            · exact List.mem_map.mpr ⟨tc, htc, rfl⟩
            · exact List.mem_map.mpr ⟨e, he, rfl⟩
          obtain ⟨y, hy⟩ := Option.isSome_iff_exists.mp (h3 _ hx)
          simp only [projectSound, hlooped, if_true]
          rw [qLoopProject_mono t _ f3 _ hF3 _ y hy]
          rfl
        rcases Option.isSome_iff_exists.mp hmm with ⟨pt, hpt⟩
        rw [Scheduler.getNextEvents, h1']
        simp only [Bind.bind, Option.bind]
        rw [if_pos hc, h2']
        simp only [Option.map_some', Option.bind]
        rw [hpt]
        rfl
      · obtain ⟨f3, h3⟩ := qLoopProject_term_list t
          (MusicTime.toSeconds s.loopTime s.timeSignature s.bpm) hls
          ((s.tracks.map (fun tc =>
            (perTrackEvents false s.loopTime
              (mtAdd s.timeSignature cur s.lookahead) tc.1 tc.2).map
              (fun e => (toScheduled s.timeSignature s.bpm tc.1.instrument e).time))).flatten)
        refine ⟨max f1 f3, ?_⟩
        have h1' := mtLoopReduce_mono _ _ _ f1 (max f1 f3)
          (le_max_left _ _) _ _ h1
        have hF3 : f3 ≤ max f1 f3 := le_max_right _ _
        have hmm : (s.tracks.mapM (perTrackStep s (max f1 f3) t false
            (mtAdd s.timeSignature cur s.lookahead))).isSome = true := by
          apply perTrack_mapM_isSome
          intro tc htc e he
          have hx : (toScheduled s.timeSignature s.bpm tc.1.instrument e).time ∈
              (s.tracks.map (fun tc =>
                (perTrackEvents false s.loopTime
                  (mtAdd s.timeSignature cur s.lookahead) tc.1 tc.2).map
                  (fun e => (toScheduled s.timeSignature s.bpm tc.1.instrument
                    e).time))).flatten := by
            apply List.mem_flatten.mpr
            refine ⟨(perTrackEvents false s.loopTime
              (mtAdd s.timeSignature cur s.lookahead) tc.1 tc.2).map
              (fun e => (toScheduled s.timeSignature s.bpm tc.1.instrument
                e).time), ?_, ?_⟩
            · exact List.mem_map.mpr ⟨tc, htc, rfl⟩
            · exact List.mem_map.mpr ⟨e, he, rfl⟩
          obtain ⟨y, hy⟩ := Option.isSome_iff_exists.mp (h3 _ hx)
          simp only [projectSound, hlooped, if_true]
          rw [qLoopProject_mono t _ f3 _ hF3 _ y hy]
          rfl
        rcases Option.isSome_iff_exists.mp hmm with ⟨pt, hpt⟩
        rw [Scheduler.getNextEvents, h1']
        simp only [Bind.bind, Option.bind]
        rw [if_neg hc]
        rw [hpt]
        rfl
  · intro hl hz hcond fuel
    rw [Scheduler.getNextEvents, hl, hz]
    rcases hcond with hpos | ⟨ht0, hla⟩
    · have hlt : mtLtB MusicTime.zero
          (MusicTime.fromSeconds s.timeSignature s.bpm t) = true := by
        rw [mtLtB_iff_tbQ s.timeSignature _ _ hn (isNorm_zero _ hn)
          (isNorm_fromSeconds _ _ _ hn), tbQ_zero, tbQ_fromSeconds]
        positivity
      rw [mtLoopReduce_diverge_zero s.timeSignature hn fuel
        (MusicTime.fromSeconds s.timeSignature s.bpm t)
        (isNorm_fromSeconds _ _ _ hn) hlt]
      rfl
    · have h0 : MusicTime.fromSeconds s.timeSignature s.bpm t =
          MusicTime.zero := by
        rw [MusicTime.fromSeconds, ht0]
        simp [mtNormalize, MusicTime.zero]
      rw [h0]
      have h1 : mtLoopReduce s.timeSignature true MusicTime.zero fuel
          MusicTime.zero = some MusicTime.zero := by
        apply mtLoopReduce_stay
        simp [mtLtB, MusicTime.zero]
      rw [h1]
      simp only [Bind.bind, Option.bind]
      have hltB : mtLtB MusicTime.zero
          (mtAdd s.timeSignature MusicTime.zero s.lookahead) = true := by
        rw [mtLtB_iff_tbQ s.timeSignature _ _ hn (isNorm_zero _ hn)
          (isNorm_mtAdd _ _ _ hn), tbQ_zero, tbQ_mtAdd, tbQ_zero, zero_add]
        exact hla
      rw [if_pos (by rw [Bool.true_and]; exact hltB)]
      rw [mtLoopReduce_diverge_zero s.timeSignature hn fuel
        (mtAdd s.timeSignature MusicTime.zero s.lookahead)
        (isNorm_mtAdd _ _ _ hn) hltB]
      rfl

/-- Witness for **C9**: the well-configured looped scheduler terminates at
some fuel, and the zero-loop scheduler diverges at every fuel (elapsed time
`1 > 0`). -/
theorem scheduler_termination_witness :
    (∃ fuel, (loopedScheduler.getNextEvents fuel 1).isSome = true)
    ∧ (∀ fuel, zeroLoopScheduler.getNextEvents fuel 1 = none) :=
  ⟨(scheduler_termination loopedScheduler 1
      (by norm_num [loopedScheduler]) (by norm_num [loopedScheduler, ts44])).1
    (fun _ => ⟨⟨by norm_num [loopedScheduler, MusicTime.measures, ts44],
        by norm_num [loopedScheduler, MusicTime.measures, ts44]⟩,
      by norm_num [loopedScheduler, MusicTime.measures, ts44, tbQ]⟩),
    (scheduler_termination zeroLoopScheduler 1
      (by norm_num [zeroLoopScheduler, loopedScheduler])
      (by norm_num [zeroLoopScheduler, loopedScheduler, ts44])).2
    rfl rfl (Or.inl (by norm_num))⟩

end MT
end VibeLive
